import Mathlib

/-!
# titpetric/cli: environment overlay of `ParseWithFlagSet`

A shallow embedding of `ParseWithFlagSet` (command.go) over a model of the
part of spf13/pflag it drives: flag lookup, the per-flag `Changed` marker,
`Value.Set`, and `FlagSet.Parse`.

Go strings are Lean `String`s, read character by character; the process
environment (`os.Environ()`) is an explicit `List String` argument; a Go
method that mutates its receiver and returns an `error` is a function
returning the new state together with `Option` of the error. The Unicode
case tables behind `strings.ToLower` are the parameter `tbl` of every
definition that lowers a key.
-/

set_option autoImplicit false

namespace Cli

/-! ## Go `strings` helpers -/

/-- Cut a character list at the first occurrence of `sep`: the part before
it and the part after it, or `none` when `sep` does not occur. -/
def cutAt (sep : Char) : List Char → Option (List Char × List Char)
  | [] => none
  | c :: cs =>
    if c = sep then some ([], cs)
    else match cutAt sep cs with
      | none => none
      | some (k, v) => some (c :: k, v)

/-- Go `strings.SplitN(s, sep, 2)` for a one-character separator: one piece
when `sep` does not occur, otherwise the two pieces around its first
occurrence. -/
def SplitN (s : String) (sep : Char) : List String :=
  match cutAt sep s.data with
  | none => [s]
  | some (k, v) => [String.mk k, String.mk v]

/-- Go `strings.Contains(s, sub)` for a one-character `sub`. -/
def Contains (s : String) (c : Char) : Bool :=
  decide (c ∈ s.data)

/-- Go `unicode.ToLower(r)`: an ASCII rune is lowered by rule (`A`..`Z` to
`a`..`z`, every other ASCII rune kept); a rune above ASCII is lowered by the
Unicode case tables, which are not part of this repository and are taken
as the parameter `tbl`. -/
def toLowerRune (tbl : Char → Char) (c : Char) : Char :=
  if c.toNat < 128 then c.toLower else tbl c

/-- Go `strings.ToLower(s)`: every rune lowered by `unicode.ToLower`. -/
def ToLower (tbl : Char → Char) (s : String) : String :=
  String.mk (s.data.map (toLowerRune tbl))

/-- Go `strings.Replace(s, old, new, -1)` for one-character `old`, `new`. -/
def Replace (s : String) (old new : Char) : String :=
  String.mk (s.data.map (fun c => if c = old then new else c))

/-! ## The pflag collaborator -/

/-- Modelled from the spec: the flag handle of the external flag-parsing
library (pflag `Flag`), which is not part of this repository: a name, an
optional one-character shorthand (`""` when absent), the value cell, the
"changed" marker, and the value used when the flag is given without an
argument (`""` when an argument is required). Each flag owns its value
cell. `V` is the type of value cells. -/
structure Flag (V : Type) where
  Name : String
  Shorthand : String
  Value : V
  Changed : Bool
  NoOptDefVal : String
  deriving DecidableEq, Repr

/-- Modelled from the spec: the flag collection of the external library
(pflag `FlagSet`) as created by `pflag.NewFlagSet(name, ContinueOnError)`
with no further configuration: the declared flags in declaration order and
the leftover positional arguments of the last parse. Lookup is by exact
name (no normalisation function is installed). -/
structure FlagSet (V : Type) where
  formal : List (Flag V)
  args : List String
  deriving DecidableEq, Repr

/-- Errors that `ParseWithFlagSet` can return: an error of `Value.Set`
passed through as it is, or one of the errors of the standard parse. -/
inductive Error (E : Type) where
  | value (e : E)
  | invalidArgument (value shorthand name : String) (e : E)
  | noSuchFlag (name : String)
  | badFlagSyntax (s : String)
  | unknownFlag (name : String)
  | needsArgument (s : String)
  | unknownShorthand (c : Char) (shorthands : String)
  | shorthandNeedsArgument (c : Char) (shorthands : String)
  | help
  deriving DecidableEq, Repr

section Pflag

variable {V E : Type}

/-- Replace the first flag called `name` by `g`: the write through the
pointer that `Lookup` returned. -/
def storeFlag (name : String) (g : Flag V) : List (Flag V) → List (Flag V)
  | [] => []
  | f :: l => if f.Name = name then g :: l else f :: storeFlag name g l

/-- Modelled from the spec: lookup-by-name of the external library (pflag
`FlagSet.Lookup`): the flag handle, or absent. -/
def FlagSet.Lookup (fs : FlagSet V) (name : String) : Option (Flag V) :=
  fs.formal.find? (fun f => decide (f.Name = name))

/-- The flag collection after the flag called `name` has been overwritten
by `g`. -/
def FlagSet.store (fs : FlagSet V) (name : String) (g : Flag V) : FlagSet V :=
  { fs with formal := storeFlag name g fs.formal }

/-- Modelled from the spec: pflag `FlagSet.Set(name, value)`, the setter the
standard parse uses: it runs the flag's own `Value.Set` (here `vset`, which
returns the new cell and the error, if any) and, when that succeeds, marks
the flag changed. -/
def FlagSet.Set (vset : V → String → V × Option E) (fs : FlagSet V)
    (name value : String) : FlagSet V × Option (Error E) :=
  match fs.Lookup name with
  | none => (fs, some (Error.noSuchFlag name))
  | some flag =>
    let r := vset flag.Value value
    match r.2 with
    | some e =>
      (fs.store name { flag with Value := r.1 },
        some (Error.invalidArgument value flag.Shorthand flag.Name e))
    | none =>
      (fs.store name { flag with Value := r.1, Changed := true }, none)

/-- Modelled from the spec: pflag `parseLongArg` for the token `s`
(`--name`, `--name=value`) followed by the remaining arguments `a`. The
result says whether the first of `a` was consumed as the flag's value. -/
def parseLongArg (vset : V → String → V × Option E) (fs : FlagSet V)
    (s : String) (a : List String) : FlagSet V × Bool × Option (Error E) :=
  match s.data.drop 2 with
  | [] => (fs, false, some (Error.badFlagSyntax s))
  | c :: cs =>
    if c = '-' ∨ c = '=' then (fs, false, some (Error.badFlagSyntax s))
    else
      let split := SplitN (String.mk (c :: cs)) '='
      let name := split.headD ""
      match fs.Lookup name with
      | none =>
        if name = "help" then (fs, false, some Error.help)
        else (fs, false, some (Error.unknownFlag name))
      | some flag =>
        match split with
        | [_, value] =>
          let r := fs.Set vset flag.Name value
          (r.1, false, r.2)
        | _ =>
          if flag.NoOptDefVal ≠ "" then
            let r := fs.Set vset flag.Name flag.NoOptDefVal
            (r.1, false, r.2)
          else match a with
            | value :: _ =>
              let r := fs.Set vset flag.Name value
              (r.1, true, r.2)
            | [] => (fs, false, some (Error.needsArgument s))

/-- Modelled from the spec: pflag lookup of a flag by its shorthand
character. -/
def FlagSet.lookupShorthand (fs : FlagSet V) (c : Char) : Option (Flag V) :=
  fs.formal.find? (fun f => decide (f.Shorthand.data = [c]))

/-- Modelled from the spec: pflag `parseShortArg`, the loop over the
shorthand letters of one token (`-abc`, `-f=value`, `-fvalue`, `-f value`).
The result says whether the first of `a` was consumed as a value. -/
def parseShortArg (vset : V → String → V × Option E) (a : List String) :
    FlagSet V → List Char → FlagSet V × Bool × Option (Error E)
  | fs, [] => (fs, false, none)
  | fs, c :: rest =>
    if ("test.".data).isPrefixOf (c :: rest) then (fs, false, none)
    else match fs.lookupShorthand c with
      | none =>
        if c = 'h' then (fs, false, some Error.help)
        else (fs, false, some (Error.unknownShorthand c (String.mk (c :: rest))))
      | some flag =>
        if 2 ≤ rest.length ∧ rest.head? = some '=' then
          let r := fs.Set vset flag.Name (String.mk (rest.drop 1))
          (r.1, false, r.2)
        else if flag.NoOptDefVal ≠ "" then
          match fs.Set vset flag.Name flag.NoOptDefVal with
          | (fs1, some e) => (fs1, false, some e)
          | (fs1, none) => parseShortArg vset a fs1 rest
        else if rest ≠ [] then
          let r := fs.Set vset flag.Name (String.mk rest)
          (r.1, false, r.2)
        else match a with
          | value :: _ =>
            let r := fs.Set vset flag.Name value
            (r.1, true, r.2)
          | [] =>
            (fs, false,
              some (Error.shorthandNeedsArgument c (String.mk (c :: rest))))

/-- Modelled from the spec: pflag `parseArgs`, the loop of the standard
parse over the argument list (flags and positional arguments may be
interspersed; `--` ends the flags). -/
def parseArgs (vset : V → String → V × Option E) :
    FlagSet V → List String → FlagSet V × Option (Error E)
  | fs, [] => (fs, none)
  | fs, s :: args =>
    match s.data with
    | c0 :: c1 :: cs =>
      if c0 ≠ '-' then parseArgs vset { fs with args := fs.args ++ [s] } args
      else if c1 = '-' then
        if cs = [] then ({ fs with args := fs.args ++ args }, none)
        else
          match parseLongArg vset fs s args with
          | (fs1, _, some e) => (fs1, some e)
          | (fs1, false, none) => parseArgs vset fs1 args
          | (fs1, true, none) =>
            match args with
            | [] => (fs1, none)
            | _ :: args1 => parseArgs vset fs1 args1
      else
        match parseShortArg vset args fs (c1 :: cs) with
        | (fs1, _, some e) => (fs1, some e)
        | (fs1, false, none) => parseArgs vset fs1 args
        | (fs1, true, none) =>
          match args with
          | [] => (fs1, none)
          | _ :: args1 => parseArgs vset fs1 args1
    | _ => parseArgs vset { fs with args := fs.args ++ [s] } args

/-- Modelled from the spec: the standard parse of the external library
(pflag `FlagSet.Parse`): the leftover arguments start empty, then the
argument list is parsed; the first error is returned. -/
def FlagSet.Parse (vset : V → String → V × Option E) (fs : FlagSet V)
    (arguments : List String) : FlagSet V × Option (Error E) :=
  parseArgs vset { fs with args := [] } arguments

/-! ## command.go -/

/-- The body of the loop over `os.Environ()` in `ParseWithFlagSet` for one
entry `v`: the collection afterwards, and the error on which the function
returns, if any (`none`: the loop goes on). -/
def overlayEntry (tbl : Char → Char) (vset : V → String → V × Option E) (fs : FlagSet V)
    (v : String) : FlagSet V × Option E :=
  match SplitN v '=' with
  | [key, val] =>
    if ¬ Contains key '_' then (fs, none)
    else
      let flagName := Replace (ToLower tbl key) '_' '-'
      match fs.Lookup flagName with
      | none => (fs, none)
      | some fn =>
        if fn.Changed then (fs, none)
        else
          let r := vset fn.Value val
          (fs.store flagName { fn with Value := r.1 }, r.2)
  | _ => (fs, none)

/-- The loop `for _, v := range os.Environ()` of `ParseWithFlagSet`, which
returns from the function on the first error. -/
def overlayLoop (tbl : Char → Char) (vset : V → String → V × Option E) :
    FlagSet V → List String → FlagSet V × Option E
  | fs, [] => (fs, none)
  | fs, v :: rest =>
    match overlayEntry tbl vset fs v with
    | (fs1, some e) => (fs1, some e)
    | (fs1, none) => overlayLoop tbl vset fs1 rest

/-- `ParseWithFlagSet(fs, args)` with the environment `environ`: the flag
collection afterwards (it is mutated in place) and the returned error
(`none` is Go's `nil`). An absent collection is `none`. -/
def ParseWithFlagSet (tbl : Char → Char) (vset : V → String → V × Option E) (environ : List String)
    (fs : Option (FlagSet V)) (args : List String) :
    Option (FlagSet V) × Option (Error E) :=
  match fs with
  | none => (none, none)
  | some fs =>
    match overlayLoop tbl vset fs environ with
    | (fs1, some e) => (some fs1, some (Error.value e))
    | (fs1, none) =>
      let r := fs1.Parse vset args
      (some r.1, r.2)

end Pflag

/-! ## Built-in value cells used in the examples -/

/-- Errors of the built-in value cells. -/
inductive SetError where
  | parseBool (s : String)
  | csv (s : String)
  | parseInt (s : String)
  deriving DecidableEq, Repr

/-- Modelled from the spec: four of the value cells the external library
provides, `StringVar`, `BoolVar`, `StringSliceVar` and `IntVar`. A
string-list cell records whether it has been set before. -/
inductive BuiltinValue where
  | stringValue (s : String)
  | boolValue (b : Bool)
  | stringSliceValue (value : List String) (changed : Bool)
  | intValue (i : Int)
  deriving DecidableEq, Repr

/-- Read a run of decimal digits, most significant first, onto `acc`. -/
def parseDigits : List Char → Nat → Option Nat
  | [], acc => some acc
  | c :: cs, acc =>
    if c.isDigit then parseDigits cs (acc * 10 + (c.toNat - 48)) else none

/-- Modelled from the spec: `strconv.ParseInt(s, 0, 64)`, restricted to
plain decimal numerals within 64 bits: an optional sign and digits, without
a leading zero unless the numeral is `0`. Texts with a base prefix, an
underscore or a leading zero, and numbers out of range, are outside the
model and reported as `none`. -/
def parseDecimal (s : String) : Option Int :=
  let neg : Bool := s.data.head? = some '-'
  let ds : List Char :=
    if s.data.head? = some '-' ∨ s.data.head? = some '+' then s.data.drop 1 else s.data
  if ds = [] ∨ (ds.head? = some '0' ∧ 2 ≤ ds.length) then none
  else
    match parseDigits ds 0 with
    | none => none
    | some n =>
      let v : Int := if neg then -(n : Int) else (n : Int)
      if -9223372036854775808 ≤ v ∧ v ≤ 9223372036854775807 then some v else none

/-- Split a character list at every comma. -/
def splitComma : List Char → List String
  | [] => [""]
  | c :: cs =>
    match splitComma cs with
    | [] => [""]
    | f :: fs => if c = ',' then "" :: f :: fs else String.mk (c :: f.data) :: fs

/-- Modelled from the spec: pflag `readAsCSV`, restricted to values without
a double quote, carriage return or line feed, on which the record is the
list of comma-separated fields; the empty value is the empty list. Values
with one of those characters are outside the model and reported as an
error. -/
def readAsCSV (val : String) : Except SetError (List String) :=
  if val = "" then Except.ok []
  else if '"' ∈ val.data ∨ '\n' ∈ val.data ∨ '\r' ∈ val.data then
    Except.error (SetError.csv val)
  else Except.ok (splitComma val.data)

/-- Modelled from the spec: `Value.Set` of the built-in cells. A string cell
takes the text as it is. A boolean cell accepts the spellings of
`strconv.ParseBool` and is overwritten with `false` when it rejects the
text. A string-list cell is replaced by the parsed list on its first set and
appended to on every later one. An integer cell takes the parsed number and
is overwritten with `0` when it rejects the text. -/
def BuiltinValue.Set : BuiltinValue → String → BuiltinValue × Option SetError
  | BuiltinValue.stringValue _, val => (BuiltinValue.stringValue val, none)
  | BuiltinValue.boolValue _, val =>
    if val ∈ ["1", "t", "T", "TRUE", "true", "True"] then
      (BuiltinValue.boolValue true, none)
    else if val ∈ ["0", "f", "F", "FALSE", "false", "False"] then
      (BuiltinValue.boolValue false, none)
    else (BuiltinValue.boolValue false, some (SetError.parseBool val))
  | BuiltinValue.stringSliceValue value changed, val =>
    match readAsCSV val with
    | Except.error e => (BuiltinValue.stringSliceValue value changed, some e)
    | Except.ok rv =>
      if ¬ changed then (BuiltinValue.stringSliceValue rv true, none)
      else (BuiltinValue.stringSliceValue (value ++ rv) true, none)
  | BuiltinValue.intValue _, val =>
    match parseDecimal val with
    | some v => (BuiltinValue.intValue v, none)
    | none => (BuiltinValue.intValue 0, some (SetError.parseInt val))

/-- A freshly declared string flag (`StringVar`). -/
def stringFlag (name dflt : String) : Flag BuiltinValue :=
  { Name := name, Shorthand := "", Value := BuiltinValue.stringValue dflt,
    Changed := false, NoOptDefVal := "" }

/-- A freshly declared boolean flag (`BoolVar`): given without an argument
it means `true`. -/
def boolFlag (name : String) (dflt : Bool) : Flag BuiltinValue :=
  { Name := name, Shorthand := "", Value := BuiltinValue.boolValue dflt,
    Changed := false, NoOptDefVal := "true" }

/-- A freshly declared integer flag (`IntVar`). -/
def intFlag (name : String) (dflt : Int) : Flag BuiltinValue :=
  { Name := name, Shorthand := "", Value := BuiltinValue.intValue dflt,
    Changed := false, NoOptDefVal := "" }

/-- A freshly declared string-list flag (`StringSliceVar`). -/
def stringSliceFlag (name : String) (dflt : List String) : Flag BuiltinValue :=
  { Name := name, Shorthand := "", Value := BuiltinValue.stringSliceValue dflt false,
    Changed := false, NoOptDefVal := "" }

/-- The value cell of the flag called `name`, when it is declared. -/
def valueOf {V : Type} (fs : Option (FlagSet V)) (name : String) : Option V :=
  match fs with
  | none => none
  | some fs => (fs.Lookup name).map (fun f => f.Value)

/-- The changed marker of the flag called `name`, when it is declared. -/
def changedOf {V : Type} (fs : Option (FlagSet V)) (name : String) : Option Bool :=
  match fs with
  | none => none
  | some fs => (fs.Lookup name).map (fun f => f.Changed)

/-! ## Vocabulary of the statements -/

/-- The key of an environment entry: the text before its first `=` (the
whole entry when it has none). -/
def envKey (v : String) : String :=
  (SplitN v '=').headD ""

/-- The flag name an environment key stands for: lowercased, with every
underscore replaced by a hyphen (lines 88-89 of command.go). -/
def flagNameOf (tbl : Char → Char) (key : String) : String :=
  Replace (ToLower tbl key) '_' '-'

/-- `AddsUnscoped env env1`: the environment `env1` is `env` with extra
entries put in at any positions, each with a key that has no underscore. -/
inductive AddsUnscoped : List String → List String → Prop where
  | nil : AddsUnscoped [] []
  | keep (v : String) {env env1 : List String} :
      AddsUnscoped env env1 → AddsUnscoped (v :: env) (v :: env1)
  | extra (v : String) {env env1 : List String} :
      Contains (envKey v) '_' = false →
      AddsUnscoped env env1 → AddsUnscoped env (v :: env1)

/-- A part of the Unicode case tables, for the examples: U+212A (Kelvin
sign) lowers to `k` and U+00C0 to U+00E0; the examples use no other rune
above ASCII. -/
def exampleLower (c : Char) : Char :=
  if c = Char.ofNat 0x212A then 'k'
  else if c = Char.ofNat 0xC0 then Char.ofNat 0xE0
  else c

/-- The collection of the examples: the string flag `db-dsn` (default
`"default"`), the boolean flags `verbose` and `dry-run` and the string-list
flag `foo-bar`, freshly declared. -/
def exampleFlags : FlagSet BuiltinValue :=
  { formal := [stringFlag "db-dsn" "default", boolFlag "verbose" false,
      stringSliceFlag "foo-bar" [], boolFlag "dry-run" false],
    args := [] }

/-- The flag and the text on which the loop body calls `Value.Set` for the
entry `v` (line 96 of command.go), or `none` when the entry is skipped by
one of the `continue`s. -/
def overlayTarget {V : Type} (tbl : Char → Char) (fs : FlagSet V) (v : String) : Option (Flag V × String) :=
  match SplitN v '=' with
  | [key, val] =>
    if Contains key '_' then
      match fs.Lookup (flagNameOf tbl key) with
      | none => none
      | some fn => if fn.Changed then none else some (fn, val)
    else none
  | _ => none

/-- The declared names with their shorthands, in declaration order. -/
def sigOf {V : Type} (fs : FlagSet V) : List (String × String) :=
  fs.formal.map (fun g => (g.Name, g.Shorthand))

/-- The argument token `s` names the flag `n`: it is `--n` or `--n=...`, or
it starts with a single hyphen and has among its letters the shorthand of a
flag called `n`. -/
def tokenNames {V : Type} (fs : FlagSet V) (n : String) (s : String) : Bool :=
  match s.data with
  | c0 :: c1 :: cs =>
    if c0 = '-' then
      if c1 = '-' then decide ((SplitN (String.mk cs) '=').headD "" = n)
      else (c1 :: cs).any (fun c =>
        fs.formal.any (fun g => decide (g.Name = n ∧ g.Shorthand.data = [c])))
    else false
  | _ => false

/-- Some token of the argument list names the flag `n`. -/
def argsName {V : Type} (fs : FlagSet V) (n : String) (args : List String) : Bool :=
  args.any (tokenNames fs n)

/-- The flag record called `name` in a collection that may be absent. -/
def flagOf {V : Type} (fs : Option (FlagSet V)) (name : String) : Option (Flag V) :=
  match fs with
  | none => none
  | some fs => fs.Lookup name

/-- The environment entry `v` refers to the flag `n`: it is `key=val` with
an underscore in `key`, and `n` is the flag name of `key`. -/
def entryRefers (tbl : Char → Char) (v n : String) : Bool :=
  match SplitN v '=' with
  | [key, _] => Contains key '_' && decide (flagNameOf tbl key = n)
  | _ => false

/-- No entry of the environment refers to the flag `n`. -/
def envAvoids (tbl : Char → Char) (env : List String) (n : String) : Bool :=
  env.all (fun v => !entryRefers tbl v n)

/-- The calls of `Value.Set` that the loop of `ParseWithFlagSet` makes (line
96 of command.go), in order: for each the name of the flag and whether the
Set succeeded. The scan follows the loop: it moves on with the collection
the loop body leaves and ends after the first failing Set. -/
def overlayCalls {V E : Type} (tbl : Char → Char) (vset : V → String → V × Option E) :
    FlagSet V → List String → List (String × Bool)
  | _, [] => []
  | fs, v :: rest =>
    match overlayTarget tbl fs v with
    | none => overlayCalls tbl vset (overlayEntry tbl vset fs v).1 rest
    | some (fn, val) =>
      match (vset fn.Value val).2 with
      | some _ => [(fn.Name, false)]
      | none => (fn.Name, true) :: overlayCalls tbl vset (overlayEntry tbl vset fs v).1 rest

/-- The number of environment entries whose value the loop writes into the
flag `n`: the successful Set calls on `n`. -/
def writesTo {V E : Type} (tbl : Char → Char) (vset : V → String → V × Option E) (fs : FlagSet V)
    (env : List String) (n : String) : Nat :=
  (overlayCalls tbl vset fs env).countP (fun c => decide (c.1 = n) && c.2)

/-- The texts that the loop writes into the flag `n`, in order: the values
of the entries for which the loop calls Set on `n` and the Set succeeds. The
scan follows the loop like `overlayCalls`. -/
def writtenTexts {V E : Type} (tbl : Char → Char) (vset : V → String → V × Option E) :
    FlagSet V → List String → String → List String
  | _, [], _ => []
  | fs, v :: rest, n =>
    match overlayTarget tbl fs v with
    | none => writtenTexts tbl vset (overlayEntry tbl vset fs v).1 rest n
    | some (fn, val) =>
      match (vset fn.Value val).2 with
      | some _ => []
      | none =>
        if fn.Name = n then val :: writtenTexts tbl vset (overlayEntry tbl vset fs v).1 rest n
        else writtenTexts tbl vset (overlayEntry tbl vset fs v).1 rest n

/-- The flag `n` is declared and not marked changed. -/
def isUnchanged {V : Type} (fs : FlagSet V) (n : String) : Bool :=
  match fs.Lookup n with
  | some f => !f.Changed
  | none => false

/-- The number of environment entries that refer to the flag `n`. -/
def countRefs (tbl : Char → Char) (env : List String) (n : String) : Nat :=
  env.countP (fun v => entryRefers tbl v n)

/-- The name of the flag that the loop applies the entry `v` to, in the
collection `fs`, if any. -/
def targetName {V : Type} (tbl : Char → Char) (fs : FlagSet V) (v : String) : Option String :=
  (overlayTarget tbl fs v).map (fun p => p.1.Name)

/-- No two entries of the environment are applied to the same flag. -/
def targetsDistinct {V : Type} (tbl : Char → Char) (fs : FlagSet V) (env : List String) : Prop :=
  env.Pairwise (fun u v => targetName tbl fs u = none ∨ targetName tbl fs u ≠ targetName tbl fs v)

/-- Every Set that the entries of the environment call for, on the cells
of `fs`, succeeds. -/
def setsSucceed {V E : Type} (tbl : Char → Char) (vset : V → String → V × Option E) (fs : FlagSet V)
    (env : List String) : Bool :=
  env.all (fun v =>
    match overlayTarget tbl fs v with
    | none => true
    | some (fn, val) => (vset fn.Value val).2.isNone)

/-- The write that the entry `v` stands for when its target is read off
the collection `fs0`, done on `fs`. -/
def applyEntry {V E : Type} (tbl : Char → Char) (vset : V → String → V × Option E) (fs0 fs : FlagSet V)
    (v : String) : FlagSet V :=
  match overlayTarget tbl fs0 v with
  | none => fs
  | some (fn, val) => fs.store fn.Name { fn with Value := (vset fn.Value val).1 }

/-! ## Theorems -/

section Theorems

variable {V E : Type} (tbl : Char → Char)

theorem overlayEntry_unscoped (vset : V → String → V × Option E) (fs : FlagSet V)
    (v : String) (h : Contains (envKey v) '_' = false) :
    overlayEntry tbl vset fs v = (fs, none) := by
  unfold overlayEntry
  unfold envKey at h
  unfold SplitN at h ⊢
  cases hc : cutAt '=' v.data with
  | none => simp
  | some p =>
    obtain ⟨k, w⟩ := p
    simp [hc] at h
    simp [h]

theorem overlayLoop_append (vset : V → String → V × Option E) (pre post : List String) :
    ∀ fs : FlagSet V, (overlayLoop tbl vset fs pre).2 = none →
      overlayLoop tbl vset fs (pre ++ post) = overlayLoop tbl vset (overlayLoop tbl vset fs pre).1 post := by
  induction pre with
  | nil => intro fs _; rfl
  | cons v rest ih =>
    intro fs h
    simp only [List.cons_append, overlayLoop] at h ⊢
    cases hr : overlayEntry tbl vset fs v with
    | mk fs1 err =>
      cases err with
      | some e => simp [hr] at h
      | none =>
        simp only [hr] at h ⊢
        exact ih fs1 h

/-- C6: with an absent flag collection, ParseWithFlagSet returns success for
every environment and every argument list, and the collection stays
absent (nothing is looked up, set or parsed). -/
theorem parseWithFlagSet_nil (vset : V → String → V × Option E)
    (environ args : List String) :
    ParseWithFlagSet tbl vset environ none args = (none, none) := rfl

/-- C4: extra environment entries whose keys have no underscore change
neither the result nor the final flag collection of ParseWithFlagSet,
whatever the flags and the arguments are. -/
theorem parseWithFlagSet_unscoped_ignored (vset : V → String → V × Option E)
    (env env1 : List String) (h : AddsUnscoped env env1)
    (fs : Option (FlagSet V)) (args : List String) :
    ParseWithFlagSet tbl vset env1 fs args = ParseWithFlagSet tbl vset env fs args := by
  cases fs with
  | none => rfl
  | some fs =>
    have key : ∀ fs : FlagSet V, overlayLoop tbl vset fs env1 = overlayLoop tbl vset fs env := by
      induction h with
      | nil => intro fs; rfl
      | keep v _ ih =>
        intro fs
        simp only [overlayLoop]
        cases hr : overlayEntry tbl vset fs v with
        | mk fs1 err =>
          cases err with
          | some e => rfl
          | none => exact ih fs1
      | extra v hv _ ih =>
        intro fs
        simp only [overlayLoop, overlayEntry_unscoped tbl vset fs v hv]
        exact ih fs
    simp only [ParseWithFlagSet, key fs]

/-- Witness for C4: `VERBOSE=true` and `PATH=/bin` around `DB_DSN=x`, with a
declared flag `verbose`. -/
theorem parseWithFlagSet_unscoped_ignored_witness :
    ParseWithFlagSet exampleLower BuiltinValue.Set ["VERBOSE=true", "DB_DSN=x", "PATH=/bin"]
        (some exampleFlags) ["--foo-bar", "y"]
      = ParseWithFlagSet exampleLower BuiltinValue.Set ["DB_DSN=x"] (some exampleFlags) ["--foo-bar", "y"] :=
  parseWithFlagSet_unscoped_ignored exampleLower BuiltinValue.Set _ _
    (AddsUnscoped.extra _ (by decide)
      (AddsUnscoped.keep _ (AddsUnscoped.extra _ (by decide) AddsUnscoped.nil)))
    _ _

/-- C5: when the first failing set of the environment scan happens at an
entry `key=val` (underscore in the key, the flag it names declared and not
changed, its Set rejecting `val` with `e`), ParseWithFlagSet returns exactly
`e`, and the collection is the one right after that Set: the entries after
it and the argument list have no effect. -/
theorem parseWithFlagSet_fail_fast (vset : V → String → V × Option E)
    (fs : FlagSet V) (pre post args : List String) (v key val : String)
    (fn : Flag V) (w : V) (e : E)
    (hpre : (overlayLoop tbl vset fs pre).2 = none)
    (hsplit : SplitN v '=' = [key, val])
    (hkey : Contains key '_' = true)
    (hfn : (overlayLoop tbl vset fs pre).1.Lookup (flagNameOf tbl key) = some fn)
    (hch : fn.Changed = false)
    (hset : vset fn.Value val = (w, some e)) :
    ParseWithFlagSet tbl vset (pre ++ v :: post) (some fs) args
      = (some ((overlayLoop tbl vset fs pre).1.store (flagNameOf tbl key) { fn with Value := w }),
          some (Error.value e)) := by
  have hv : overlayEntry tbl vset (overlayLoop tbl vset fs pre).1 v
      = ((overlayLoop tbl vset fs pre).1.store (flagNameOf tbl key) { fn with Value := w }, some e) := by
    unfold flagNameOf at hfn ⊢
    simp [overlayEntry, hsplit, hkey, hfn, hch, hset]
  simp only [ParseWithFlagSet, overlayLoop_append tbl vset pre (v :: post) fs hpre, overlayLoop, hv]

/-- Witness for C5: `VERBOSE_MODE=maybe` is rejected by the boolean flag
`verbose-mode`; the later `DB_DSN=b` and the arguments are not applied. -/
theorem parseWithFlagSet_fail_fast_witness :
    ParseWithFlagSet exampleLower BuiltinValue.Set ["FOO_BAR=x", "VERBOSE_MODE=maybe", "DB_DSN=b"]
        (some { formal := [stringFlag "db-dsn" "default", boolFlag "verbose-mode" true,
                  stringSliceFlag "foo-bar" []], args := ["old"] })
        ["--db-dsn", "c"]
      = (some { formal := [stringFlag "db-dsn" "default", boolFlag "verbose-mode" false,
                  { stringSliceFlag "foo-bar" [] with
                    Value := BuiltinValue.stringSliceValue ["x"] true }],
                args := ["old"] },
          some (Error.value (SetError.parseBool "maybe"))) :=
  parseWithFlagSet_fail_fast exampleLower BuiltinValue.Set _ ["FOO_BAR=x"] ["DB_DSN=b"] ["--db-dsn", "c"]
    "VERBOSE_MODE=maybe" "VERBOSE_MODE" "maybe" (boolFlag "verbose-mode" true)
    (BuiltinValue.boolValue false) (SetError.parseBool "maybe")
    (by decide) (by decide) (by decide) (by decide) (by decide) (by decide)


theorem lookup_name (fs : FlagSet V) (n : String) (f : Flag V) (h : fs.Lookup n = some f) :
    f.Name = n := by
  have := List.find?_some h
  simpa using this

theorem find_storeFlag_ne (name n : String) (g : Flag V) (hg : g.Name = name) (hn : n ≠ name) :
    ∀ l : List (Flag V), (storeFlag name g l).find? (fun f => decide (f.Name = n))
      = l.find? (fun f => decide (f.Name = n)) := by
  intro l
  induction l with
  | nil => rfl
  | cons a l ih =>
    unfold storeFlag
    by_cases ha : a.Name = name
    · have h1 : ¬ a.Name = n := fun h => hn (h ▸ ha)
      have h2 : ¬ g.Name = n := fun h => hn (h ▸ hg)
      have h3 : ¬ name = n := fun h => hn h.symm
      simp [ha, List.find?, h2, h3]
    · simp [ha, List.find?, ih]

theorem find_storeFlag_eq (name : String) (g : Flag V) (hg : g.Name = name) :
    ∀ l : List (Flag V), (l.find? (fun f => decide (f.Name = name))).isSome →
      (storeFlag name g l).find? (fun f => decide (f.Name = name)) = some g := by
  intro l
  induction l with
  | nil => simp
  | cons a l ih =>
    intro h
    unfold storeFlag
    by_cases ha : a.Name = name
    · simp [ha, List.find?, hg]
    · simp [ha, List.find?] at h ⊢
      simpa using ih (by simpa using h)

theorem lookup_store_ne (fs : FlagSet V) (name n : String) (g : Flag V) (hg : g.Name = name)
    (hn : n ≠ name) : (fs.store name g).Lookup n = fs.Lookup n :=
  find_storeFlag_ne name n g hg hn fs.formal

theorem lookup_store_eq (fs : FlagSet V) (name : String) (f g : Flag V) (hg : g.Name = name)
    (hf : fs.Lookup name = some f) : (fs.store name g).Lookup name = some g :=
  find_storeFlag_eq name g hg fs.formal (by unfold FlagSet.Lookup at hf; simp [hf])


theorem map_storeFlag {α : Type} (p : Flag V → α) (name : String) (g f : Flag V)
    (hg : p g = p f) :
    ∀ l : List (Flag V), l.find? (fun f => decide (f.Name = name)) = some f →
      (storeFlag name g l).map p = l.map p := by
  intro l
  induction l with
  | nil => simp
  | cons a l ih =>
    intro h
    unfold storeFlag
    by_cases ha : a.Name = name
    · simp [List.find?, ha] at h
      subst h
      simp [ha, hg]
    · simp [List.find?, ha] at h
      simp [ha, ih h]

theorem overlayEntry_eq (vset : V → String → V × Option E) (fs : FlagSet V) (v : String) :
    overlayEntry tbl vset fs v =
      match overlayTarget tbl fs v with
      | none => (fs, none)
      | some (fn, val) =>
        (fs.store fn.Name { fn with Value := (vset fn.Value val).1 }, (vset fn.Value val).2) := by
  unfold overlayEntry overlayTarget flagNameOf
  split
  · rename_i key val _
    by_cases hk : Contains key '_' = true
    · simp only [hk, not_true_eq_false, if_false, if_true]
      cases hl : fs.Lookup (Replace (ToLower tbl key) '_' '-') with
      | none => rfl
      | some fn =>
        have hn := lookup_name fs _ fn hl
        by_cases hc : fn.Changed = true
        · simp [hc]
        · simp [hc, hn]
    · simp [hk]
  · rfl

theorem overlayTarget_some (fs : FlagSet V) (v : String) (fn : Flag V) (val : String)
    (h : overlayTarget tbl fs v = some (fn, val)) :
    fs.Lookup fn.Name = some fn ∧ fn.Changed = false ∧
      ∃ key, SplitN v '=' = [key, val] ∧ Contains key '_' = true ∧ flagNameOf tbl key = fn.Name := by
  unfold overlayTarget at h
  split at h
  · rename_i key val1 hs
    by_cases hk : Contains key '_' = true
    · simp only [hk, if_true] at h
      cases hl : fs.Lookup (flagNameOf tbl key) with
      | none => simp [hl] at h
      | some f =>
        simp only [hl] at h
        by_cases hc : f.Changed = true
        · simp [hc] at h
        · simp only [hc] at h
          simp at h
          obtain ⟨h1, h2⟩ := h
          subst h1 h2
          have hn := lookup_name fs _ f hl
          refine ⟨by rw [hn]; exact hl, by simpa using hc, key, hs, hk, hn.symm⟩
    · simp [hk] at h
  · simp at h

theorem set_lookup_ne (vset : V → String → V × Option E) (fs : FlagSet V)
    (name value n : String) (hn : n ≠ name) :
    (fs.Set vset name value).1.Lookup n = fs.Lookup n := by
  unfold FlagSet.Set
  cases hl : fs.Lookup name with
  | none => rfl
  | some flag =>
    have hname := lookup_name fs _ flag hl
    simp only []
    cases hv : (vset flag.Value value).2 with
    | none => exact lookup_store_ne fs name n _ hname hn
    | some e => exact lookup_store_ne fs name n _ hname hn

theorem set_map (vset : V → String → V × Option E) {α : Type} (p : Flag V → α)
    (hp : ∀ (f : Flag V) (w : V) (c : Bool), p { f with Value := w, Changed := c } = p f)
    (fs : FlagSet V) (name value : String) :
    (fs.Set vset name value).1.formal.map p = fs.formal.map p := by
  unfold FlagSet.Set
  cases hl : fs.Lookup name with
  | none => rfl
  | some flag =>
    simp only []
    cases hv : (vset flag.Value value).2 with
    | none => exact map_storeFlag p name _ flag (hp flag _ true) fs.formal hl
    | some e => exact map_storeFlag p name _ flag (hp flag _ flag.Changed) fs.formal hl

theorem parseLongArg_lookup (vset : V → String → V × Option E) (fs : FlagSet V)
    (s : String) (a : List String) (n : String)
    (h : (SplitN (String.mk (s.data.drop 2)) '=').headD "" ≠ n) :
    (parseLongArg vset fs s a).1.Lookup n = fs.Lookup n := by
  unfold parseLongArg
  cases hd : s.data.drop 2 with
  | nil => rfl
  | cons c cs =>
    rw [hd] at h
    simp only []
    split
    · rfl
    · cases hl : fs.Lookup ((SplitN (String.mk (c :: cs)) '=').headD "") with
      | none => simp only []; split <;> rfl
      | some flag =>
        have hname := lookup_name fs _ flag hl
        have hne : n ≠ flag.Name := by rw [hname]; exact fun e => h e.symm
        simp only []
        split
        · exact set_lookup_ne vset fs _ _ n hne
        · split
          · exact set_lookup_ne vset fs _ _ n hne
          · split
            · exact set_lookup_ne vset fs _ _ n hne
            · rfl

theorem parseLongArg_map (vset : V → String → V × Option E) {α : Type} (p : Flag V → α)
    (hp : ∀ (f : Flag V) (w : V) (c : Bool), p { f with Value := w, Changed := c } = p f)
    (fs : FlagSet V) (s : String) (a : List String) :
    (parseLongArg vset fs s a).1.formal.map p = fs.formal.map p := by
  unfold parseLongArg
  cases hd : s.data.drop 2 with
  | nil => rfl
  | cons c cs =>
    simp only []
    split
    · rfl
    · cases hl : fs.Lookup ((SplitN (String.mk (c :: cs)) '=').headD "") with
      | none => simp only []; split <;> rfl
      | some flag =>
        simp only []
        split
        · exact set_map vset p hp fs _ _
        · split
          · exact set_map vset p hp fs _ _
          · split
            · exact set_map vset p hp fs _ _
            · rfl

theorem parseShortArg_map (vset : V → String → V × Option E) {α : Type} (p : Flag V → α)
    (hp : ∀ (f : Flag V) (w : V) (c : Bool), p { f with Value := w, Changed := c } = p f)
    (a : List String) (letters : List Char) :
    ∀ fs : FlagSet V, (parseShortArg vset a fs letters).1.formal.map p = fs.formal.map p := by
  induction letters with
  | nil => intro fs; rfl
  | cons c rest ih =>
    intro fs
    unfold parseShortArg
    split
    · rfl
    · cases hl : fs.lookupShorthand c with
      | none => simp only []; split <;> rfl
      | some flag =>
        simp only []
        split
        · exact set_map vset p hp fs _ _
        · split
          · split
            · rename_i h; rw [← set_map vset p hp fs flag.Name flag.NoOptDefVal, h]
            · rename_i h; rw [ih, ← set_map vset p hp fs flag.Name flag.NoOptDefVal, h]
          · split
            · exact set_map vset p hp fs _ _
            · split
              · exact set_map vset p hp fs _ _
              · rfl

theorem parseShortArg_lookup (vset : V → String → V × Option E) (a : List String)
    (n : String) (letters : List Char) :
    ∀ fs : FlagSet V,
      (∀ c ∈ letters, ∀ q ∈ sigOf fs, q.1 = n → q.2.data ≠ [c]) →
      (parseShortArg vset a fs letters).1.Lookup n = fs.Lookup n := by
  induction letters with
  | nil => intro fs _; rfl
  | cons c rest ih =>
    intro fs h
    unfold parseShortArg
    split
    · rfl
    · cases hl : fs.lookupShorthand c with
      | none => simp only []; split <;> rfl
      | some flag =>
        have hmem : flag ∈ fs.formal := List.mem_of_find?_eq_some hl
        have hsh : flag.Shorthand.data = [c] := by
          have := List.find?_some hl
          simpa using this
        have hne : n ≠ flag.Name := by
          intro e
          exact h c (List.mem_cons_self _ _) (flag.Name, flag.Shorthand)
            (List.mem_map.mpr ⟨flag, hmem, rfl⟩) e.symm hsh
        simp only []
        split
        · exact set_lookup_ne vset fs _ _ n hne
        · split
          · split
            · rename_i hr; rw [← set_lookup_ne vset fs flag.Name flag.NoOptDefVal n hne, hr]
            · rename_i hr
              have hsig : sigOf (fs.Set vset flag.Name flag.NoOptDefVal).1 = sigOf fs :=
                set_map vset (fun g => (g.Name, g.Shorthand)) (fun _ _ _ => rfl) fs _ _
              rw [hr] at hsig
              rw [ih _ (fun c1 hc1 => by
                rw [hsig]; exact h c1 (List.mem_cons_of_mem _ hc1)),
                ← set_lookup_ne vset fs flag.Name flag.NoOptDefVal n hne, hr]
          · split
            · exact set_lookup_ne vset fs _ _ n hne
            · split
              · exact set_lookup_ne vset fs _ _ n hne
              · rfl

theorem any_formal_eq_sig (fs : FlagSet V) (n : String) (c : Char) :
    fs.formal.any (fun g => decide (g.Name = n ∧ g.Shorthand.data = [c]))
      = (sigOf fs).any (fun q => decide (q.1 = n ∧ q.2.data = [c])) := by
  unfold sigOf
  induction fs.formal with
  | nil => rfl
  | cons g l ih => simp only [List.any_cons, List.map_cons, ih]

theorem tokenNames_congr (fs fs1 : FlagSet V) (n s : String) (h : sigOf fs1 = sigOf fs) :
    tokenNames fs1 n s = tokenNames fs n s := by
  unfold tokenNames
  simp only [any_formal_eq_sig, h]

theorem argsName_congr (fs fs1 : FlagSet V) (n : String) (args : List String)
    (h : sigOf fs1 = sigOf fs) : argsName fs1 n args = argsName fs n args := by
  unfold argsName
  congr 1
  funext s
  exact tokenNames_congr fs fs1 n s h

theorem parseArgs_frame (vset : V → String → V × Option E) (n : String) :
    ∀ (k : Nat) (args : List String), args.length ≤ k → ∀ fs : FlagSet V,
      argsName fs n args = false →
      (parseArgs vset fs args).1.Lookup n = fs.Lookup n ∧
        sigOf (parseArgs vset fs args).1 = sigOf fs := by
  intro k
  induction k with
  | zero =>
    intro args hlen fs _
    have : args = [] := List.length_eq_zero.mp (Nat.le_zero.mp hlen)
    subst this
    exact ⟨rfl, rfl⟩
  | succ k ih =>
    intro args hlen fs hargs
    cases args with
    | nil => exact ⟨rfl, rfl⟩
    | cons s rest =>
      have hrest : rest.length ≤ k := by simpa using hlen
      simp only [argsName, List.any_cons, Bool.or_eq_false_iff] at hargs
      obtain ⟨hs, hr⟩ := hargs
      have hpos : ∀ a : List String,
          (parseArgs vset { fs with args := a } rest).1.Lookup n = fs.Lookup n ∧
            sigOf (parseArgs vset { fs with args := a } rest).1 = sigOf fs :=
        fun a => ih rest hrest { fs with args := a } hr
      have hnext : ∀ (fs1 : FlagSet V) (rest1 : List String), rest1.length ≤ k →
          (∀ t ∈ rest1, t ∈ rest) → fs1.Lookup n = fs.Lookup n → sigOf fs1 = sigOf fs →
          (parseArgs vset fs1 rest1).1.Lookup n = fs.Lookup n ∧
            sigOf (parseArgs vset fs1 rest1).1 = sigOf fs := by
        intro fs1 rest1 hlen1 hsub hl hsig
        have hr1 : argsName fs1 n rest1 = false := by
          rw [argsName_congr fs fs1 n rest1 hsig]
          unfold argsName
          rw [List.any_eq_false]
          intro t ht
          rw [List.any_eq_false] at hr
          exact hr t (hsub t ht)
        have := ih rest1 hlen1 fs1 hr1
        exact ⟨by rw [← hl]; exact this.1, by rw [← hsig]; exact this.2⟩
      rw [parseArgs]
      cases hd : s.data with
      | nil => exact hpos _
      | cons c0 t =>
        cases t with
        | nil => exact hpos _
        | cons c1 cs =>
          simp only []
          unfold tokenNames at hs
          rw [hd] at hs
          simp only [] at hs
          by_cases h0 : c0 = '-'
          · simp only [h0, ne_eq, not_true_eq_false, if_false, if_true] at hs ⊢
            by_cases h1 : c1 = '-'
            · simp only [h1, if_true] at hs ⊢
              by_cases hcs : cs = []
              · simp only [hcs, if_true]
                exact ⟨rfl, rfl⟩
              · simp only [hcs, if_false]
                have hne : (SplitN (String.mk (s.data.drop 2)) '=').headD "" ≠ n := by
                  rw [hd]; simpa using hs
                have hl := parseLongArg_lookup vset fs s rest n hne
                have hsig : sigOf (parseLongArg vset fs s rest).1 = sigOf fs :=
                  parseLongArg_map vset (fun g => (g.Name, g.Shorthand)) (fun _ _ _ => rfl) fs s rest
                rcases hres : parseLongArg vset fs s rest with ⟨fs1, consumed, err⟩
                rw [hres] at hl hsig
                cases err with
                | some e => cases consumed <;> exact ⟨hl, hsig⟩
                | none =>
                  cases consumed with
                  | false => exact hnext fs1 rest hrest (fun _ h => h) hl hsig
                  | true =>
                    simp only []
                    revert hnext
                    cases rest with
                    | nil => intro _; exact ⟨hl, hsig⟩
                    | cons a args1 =>
                      intro hnext
                      exact hnext fs1 args1 (by simp at hrest; omega)
                        (fun t ht => List.mem_cons_of_mem _ ht) hl hsig
            · simp only [h1, if_false] at hs ⊢
              have hsh : ∀ c ∈ c1 :: cs, ∀ q ∈ sigOf fs, q.1 = n → q.2.data ≠ [c] := by
                intro c hc q hq hqn hqc
                simp only [any_formal_eq_sig] at hs
                rw [List.any_eq_false] at hs
                have h2 := hs c hc
                simp only [Bool.not_eq_true] at h2
                rw [List.any_eq_false] at h2
                exact h2 q hq (by simp [hqn, hqc])
              have hl := parseShortArg_lookup vset rest n (c1 :: cs) fs hsh
              have hsig : sigOf (parseShortArg vset rest fs (c1 :: cs)).1 = sigOf fs :=
                parseShortArg_map vset (fun g => (g.Name, g.Shorthand)) (fun _ _ _ => rfl)
                  rest (c1 :: cs) fs
              rcases hres : parseShortArg vset rest fs (c1 :: cs) with ⟨fs1, consumed, err⟩
              rw [hres] at hl hsig
              cases err with
              | some e => cases consumed <;> exact ⟨hl, hsig⟩
              | none =>
                cases consumed with
                | false => exact hnext fs1 rest hrest (fun _ h => h) hl hsig
                | true =>
                  simp only []
                  revert hnext
                  cases rest with
                  | nil => intro _; exact ⟨hl, hsig⟩
                  | cons a args1 =>
                    intro hnext
                    exact hnext fs1 args1 (by simp at hrest; omega)
                      (fun t ht => List.mem_cons_of_mem _ ht) hl hsig
          · simp only [h0, ne_eq, not_false_eq_true, if_true]
            exact hpos _

theorem overlayEntry_lookup (vset : V → String → V × Option E) (fs : FlagSet V)
    (v n : String) (f : Flag V) (hf : fs.Lookup n = some f)
    (h : f.Changed = true ∨ envAvoids tbl [v] n = true) :
    (overlayEntry tbl vset fs v).1.Lookup n = some f := by
  rw [overlayEntry_eq]
  cases ht : overlayTarget tbl fs v with
  | none => exact hf
  | some p =>
    obtain ⟨fn, val⟩ := p
    obtain ⟨hl, hc, key, hs, hk, hname⟩ := overlayTarget_some tbl fs v fn val ht
    have hne : n ≠ fn.Name := by
      intro e
      rw [← e, hf] at hl
      cases h with
      | inl h =>
        have : f = fn := by simpa using hl
        rw [this, hc] at h
        exact Bool.noConfusion h
      | inr h =>
        simp [envAvoids, entryRefers, hs, hk, hname, e] at h
    exact (lookup_store_ne fs fn.Name n { fn with Value := (vset fn.Value val).1 } rfl hne).trans hf

theorem overlayEntry_map (vset : V → String → V × Option E) {α : Type} (p : Flag V → α)
    (hp : ∀ (f : Flag V) (w : V), p { f with Value := w } = p f)
    (fs : FlagSet V) (v : String) :
    (overlayEntry tbl vset fs v).1.formal.map p = fs.formal.map p := by
  rw [overlayEntry_eq]
  cases ht : overlayTarget tbl fs v with
  | none => rfl
  | some q =>
    obtain ⟨fn, val⟩ := q
    obtain ⟨hl, _, _⟩ := overlayTarget_some tbl fs v fn val ht
    exact map_storeFlag p fn.Name _ fn (hp fn _) fs.formal hl

theorem overlayEntry_args (vset : V → String → V × Option E) (fs : FlagSet V) (v : String) :
    (overlayEntry tbl vset fs v).1.args = fs.args := by
  rw [overlayEntry_eq]
  cases ht : overlayTarget tbl fs v with
  | none => rfl
  | some q => rfl

theorem overlayLoop_lookup (vset : V → String → V × Option E) (n : String) (f : Flag V)
    (env : List String) :
    ∀ fs : FlagSet V, fs.Lookup n = some f → (f.Changed = true ∨ envAvoids tbl env n = true) →
      (overlayLoop tbl vset fs env).1.Lookup n = some f := by
  induction env with
  | nil => intro fs hf _; exact hf
  | cons v rest ih =>
    intro fs hf h
    have h1 : f.Changed = true ∨ envAvoids tbl [v] n = true :=
      h.imp id (fun h => by
        simp only [envAvoids, List.all_cons, Bool.and_eq_true] at h ⊢
        simp [h.1])
    have h2 : f.Changed = true ∨ envAvoids tbl rest n = true :=
      h.imp id (fun h => by
        simp only [envAvoids, List.all_cons, Bool.and_eq_true] at h ⊢
        exact h.2)
    have he := overlayEntry_lookup tbl vset fs v n f hf h1
    simp only [overlayLoop]
    rcases hr : overlayEntry tbl vset fs v with ⟨fs1, err⟩
    rw [hr] at he
    cases err with
    | some e => exact he
    | none => exact ih fs1 he h2

theorem overlayLoop_map (vset : V → String → V × Option E) {α : Type} (p : Flag V → α)
    (hp : ∀ (f : Flag V) (w : V), p { f with Value := w } = p f)
    (env : List String) :
    ∀ fs : FlagSet V, (overlayLoop tbl vset fs env).1.formal.map p = fs.formal.map p := by
  induction env with
  | nil => intro fs; rfl
  | cons v rest ih =>
    intro fs
    have he := overlayEntry_map tbl vset p hp fs v
    simp only [overlayLoop]
    rcases hr : overlayEntry tbl vset fs v with ⟨fs1, err⟩
    rw [hr] at he
    cases err with
    | some e => exact he
    | none => rw [ih fs1]; exact he

theorem overlayLoop_args (vset : V → String → V × Option E) (env : List String) :
    ∀ fs : FlagSet V, (overlayLoop tbl vset fs env).1.args = fs.args := by
  induction env with
  | nil => intro fs; rfl
  | cons v rest ih =>
    intro fs
    have he := overlayEntry_args tbl vset fs v
    simp only [overlayLoop]
    rcases hr : overlayEntry tbl vset fs v with ⟨fs1, err⟩
    rw [hr] at he
    cases err with
    | some e => exact he
    | none => rw [ih fs1]; exact he

theorem parse_lookup (vset : V → String → V × Option E) (fs : FlagSet V) (n : String)
    (args : List String) (h : argsName fs n args = false) :
    (fs.Parse vset args).1.Lookup n = fs.Lookup n :=
  (parseArgs_frame vset n args.length args (Nat.le_refl _) { fs with args := [] } h).1

theorem parseWithFlagSet_lookup (vset : V → String → V × Option E) (fs : FlagSet V)
    (env args : List String) (n : String) (f : Flag V) (hf : fs.Lookup n = some f)
    (henv : f.Changed = true ∨ envAvoids tbl env n = true) (hargs : argsName fs n args = false) :
    flagOf (ParseWithFlagSet tbl vset env (some fs) args).1 n = some f := by
  have hl := overlayLoop_lookup tbl vset n f env fs hf henv
  have hsig : sigOf (overlayLoop tbl vset fs env).1 = sigOf fs :=
    overlayLoop_map tbl vset (fun g => (g.Name, g.Shorthand)) (fun _ _ => rfl) env fs
  simp only [ParseWithFlagSet]
  rcases hr : overlayLoop tbl vset fs env with ⟨fs1, err⟩
  rw [hr] at hl hsig
  cases err with
  | some e => exact hl
  | none =>
    simp only [flagOf]
    rw [parse_lookup vset fs1 n args (by rw [argsName_congr fs fs1 n args hsig]; exact hargs)]
    exact hl

/-- C3: a flag that is marked changed before the call and is not named in
the argument list is the same afterwards (value and marker), for every
environment, whether the call succeeds or fails. -/
theorem parseWithFlagSet_changed_kept (vset : V → String → V × Option E) (fs : FlagSet V)
    (env args : List String) (n : String) (f : Flag V) (hf : fs.Lookup n = some f)
    (hch : f.Changed = true) (hargs : argsName fs n args = false) :
    flagOf (ParseWithFlagSet tbl vset env (some fs) args).1 n = some f :=
  parseWithFlagSet_lookup tbl vset fs env args n f hf (Or.inl hch) hargs

/-- Witness for C3: `db-dsn` pre-set to `"preset"` and marked changed, with
`DB_DSN=x` and `db_dsn=y` in the environment. -/
theorem parseWithFlagSet_changed_kept_witness :
    flagOf (ParseWithFlagSet exampleLower BuiltinValue.Set ["DB_DSN=x", "FOO_BAR=a", "db_dsn=y"]
        (some { formal := [{ stringFlag "db-dsn" "default" with
                    Value := BuiltinValue.stringValue "preset", Changed := true },
                  stringSliceFlag "foo-bar" []], args := [] })
        ["--foo-bar", "b", "rest"]).1 "db-dsn"
      = some { stringFlag "db-dsn" "default" with
          Value := BuiltinValue.stringValue "preset", Changed := true } :=
  parseWithFlagSet_changed_kept exampleLower BuiltinValue.Set _ _ _ "db-dsn" _ (by decide) (by decide)
    (by decide)

/-- C10: a flag to which no environment entry refers (its name is not the
flag name of any underscore-containing key) and which the arguments do not
name is the same after ParseWithFlagSet as before it, whether the call
succeeds or fails; in a freshly declared collection its value is therefore
still the declared default. -/
theorem parseWithFlagSet_unreferenced_kept (vset : V → String → V × Option E)
    (fs : FlagSet V) (env args : List String) (n : String) (f : Flag V)
    (hf : fs.Lookup n = some f) (henv : envAvoids tbl env n = true)
    (hargs : argsName fs n args = false) :
    flagOf (ParseWithFlagSet tbl vset env (some fs) args).1 n = some f :=
  parseWithFlagSet_lookup tbl vset fs env args n f hf (Or.inr henv) hargs

/-- Witness for C10: `verbose` is neither referred to by `DB_DSN=x` and
`VERBOSE=true` nor named by `--foo-bar y`. -/
theorem parseWithFlagSet_unreferenced_kept_witness :
    flagOf (ParseWithFlagSet exampleLower BuiltinValue.Set ["DB_DSN=x", "VERBOSE=true"]
        (some exampleFlags) ["--foo-bar", "y"]).1 "verbose" = some (boolFlag "verbose" false) :=
  parseWithFlagSet_unreferenced_kept exampleLower BuiltinValue.Set exampleFlags _ _ "verbose" _
    (by decide) (by decide) (by decide)

theorem find_map_congr {β : Type} (q : Flag V → β) (n : String) :
    ∀ l l1 : List (Flag V),
      l1.map (fun g => (g.Name, q g)) = l.map (fun g => (g.Name, q g)) →
      (l1.find? (fun f => decide (f.Name = n))).map q
        = (l.find? (fun f => decide (f.Name = n))).map q := by
  intro l
  induction l with
  | nil =>
    intro l1 h
    have : l1 = [] := by simpa using h
    subst this; rfl
  | cons a l ih =>
    intro l1 h
    cases l1 with
    | nil => simp at h
    | cons b l1 =>
      simp only [List.map_cons, List.cons.injEq, Prod.mk.injEq] at h
      obtain ⟨⟨hn, hq⟩, ht⟩ := h
      by_cases hb : a.Name = n
      · simp [List.find?, hb, hn, hq]
      · simp [List.find?, hb, hn, ih l1 ht]

theorem lookup_map_congr {β : Type} (q : Flag V → β) (n : String) (fs fs1 : FlagSet V)
    (h : fs1.formal.map (fun g => (g.Name, q g)) = fs.formal.map (fun g => (g.Name, q g))) :
    (fs1.Lookup n).map q = (fs.Lookup n).map q :=
  find_map_congr q n fs.formal fs1.formal h

/-- C8, as the code has it: ParseWithFlagSet leaves the changed marker of
every flag that the arguments do not name as it was before the call, also
when it has set the flag from the environment. -/
theorem parseWithFlagSet_changed_marker (vset : V → String → V × Option E) (fs : FlagSet V)
    (env args : List String) (n : String) (hargs : argsName fs n args = false) :
    changedOf (ParseWithFlagSet tbl vset env (some fs) args).1 n = changedOf (some fs) n := by
  have hl : ((overlayLoop tbl vset fs env).1.Lookup n).map (fun g => g.Changed)
      = (fs.Lookup n).map (fun g => g.Changed) :=
    lookup_map_congr (fun g => g.Changed) n fs _
      (overlayLoop_map tbl vset (fun g => (g.Name, g.Changed)) (fun _ _ => rfl) env fs)
  have hsig : sigOf (overlayLoop tbl vset fs env).1 = sigOf fs :=
    overlayLoop_map tbl vset (fun g => (g.Name, g.Shorthand)) (fun _ _ => rfl) env fs
  simp only [ParseWithFlagSet]
  rcases hr : overlayLoop tbl vset fs env with ⟨fs1, err⟩
  rw [hr] at hl hsig
  cases err with
  | some e => exact hl
  | none =>
    simp only [changedOf]
    rw [parse_lookup vset fs1 n args (by rw [argsName_congr fs fs1 n args hsig]; exact hargs)]
    exact hl

/-- Witness for C8: `db-dsn` is set from `DB_DSN=a` and stays unmarked. -/
theorem parseWithFlagSet_changed_marker_witness :
    changedOf (ParseWithFlagSet exampleLower BuiltinValue.Set ["DB_DSN=a"] (some exampleFlags)
        ["--verbose"]).1 "db-dsn" = changedOf (some exampleFlags) "db-dsn" :=
  parseWithFlagSet_changed_marker exampleLower BuiltinValue.Set exampleFlags _ _ "db-dsn" (by decide)

/-- Counterexample to C8: after a successful call that set `db-dsn` from
`DB_DSN=a` the marker of `db-dsn` is still false, and a second call with
`DB_DSN=b` in the environment sets the flag again. -/
theorem env_set_leaves_unmarked :
    (ParseWithFlagSet exampleLower BuiltinValue.Set ["DB_DSN=a"] (some exampleFlags) []).2 = none ∧
    valueOf (ParseWithFlagSet exampleLower BuiltinValue.Set ["DB_DSN=a"] (some exampleFlags) []).1 "db-dsn"
      = some (BuiltinValue.stringValue "a") ∧
    changedOf (ParseWithFlagSet exampleLower BuiltinValue.Set ["DB_DSN=a"] (some exampleFlags) []).1 "db-dsn"
      = some false ∧
    valueOf (ParseWithFlagSet exampleLower BuiltinValue.Set ["DB_DSN=b"]
        (ParseWithFlagSet exampleLower BuiltinValue.Set ["DB_DSN=a"] (some exampleFlags) []).1 []).1 "db-dsn"
      = some (BuiltinValue.stringValue "b") := by
  decide

/-- C2, as the code has it: when the environment is `pre`, then the entry
`key=val`, then `post`, where `key` has an underscore and names a declared
flag that is not marked changed, `val` is accepted by the flag's Set, no Set
fails on `pre`, no other entry refers to the flag and the arguments do not
name it, then after ParseWithFlagSet the flag holds the cell that Set made
of `val`; everything else about the flag is as before. -/
theorem parseWithFlagSet_env_populates (vset : V → String → V × Option E) (fs : FlagSet V)
    (pre post args : List String) (v key val : String) (f : Flag V)
    (hsplit : SplitN v '=' = [key, val]) (hkey : Contains key '_' = true)
    (hf : fs.Lookup (flagNameOf tbl key) = some f) (hch : f.Changed = false)
    (hvalid : (vset f.Value val).2 = none)
    (hpre : (overlayLoop tbl vset fs pre).2 = none)
    (hother : envAvoids tbl (pre ++ post) (flagNameOf tbl key) = true)
    (hargs : argsName fs (flagNameOf tbl key) args = false) :
    flagOf (ParseWithFlagSet tbl vset (pre ++ v :: post) (some fs) args).1 (flagNameOf tbl key)
      = some { f with Value := (vset f.Value val).1 } := by
  have hav : envAvoids tbl pre (flagNameOf tbl key) = true ∧ envAvoids tbl post (flagNameOf tbl key) = true := by
    simpa [envAvoids, List.all_append] using hother
  have h1 := overlayLoop_lookup tbl vset (flagNameOf tbl key) f pre fs hf (Or.inr hav.1)
  have hv : overlayEntry tbl vset (overlayLoop tbl vset fs pre).1 v
      = ((overlayLoop tbl vset fs pre).1.store (flagNameOf tbl key)
          { f with Value := (vset f.Value val).1 }, none) := by
    unfold flagNameOf at h1 ⊢
    simp [overlayEntry, hsplit, hkey, h1, hch, hvalid]
  have h2 : ((overlayLoop tbl vset fs pre).1.store (flagNameOf tbl key)
      { f with Value := (vset f.Value val).1 }).Lookup (flagNameOf tbl key)
        = some { f with Value := (vset f.Value val).1 } :=
    lookup_store_eq _ _ f _ (lookup_name fs _ f hf) h1
  have h3 := overlayLoop_lookup tbl vset (flagNameOf tbl key) _ post _ h2 (Or.inr hav.2)
  have hloop : overlayLoop tbl vset fs (pre ++ v :: post)
      = overlayLoop tbl vset ((overlayLoop tbl vset fs pre).1.store (flagNameOf tbl key)
          { f with Value := (vset f.Value val).1 }) post := by
    rw [overlayLoop_append tbl vset pre (v :: post) fs hpre]
    simp only [overlayLoop, hv]
  have hsig : sigOf (overlayLoop tbl vset fs (pre ++ v :: post)).1 = sigOf fs :=
    overlayLoop_map tbl vset (fun g => (g.Name, g.Shorthand)) (fun _ _ => rfl) _ fs
  rw [← hloop] at h3
  simp only [ParseWithFlagSet]
  rcases hr : overlayLoop tbl vset fs (pre ++ v :: post) with ⟨fs1, err⟩
  rw [hr] at h3 hsig
  cases err with
  | some e => exact h3
  | none =>
    simp only [flagOf]
    rw [parse_lookup vset fs1 _ args (by rw [argsName_congr fs fs1 _ args hsig]; exact hargs)]
    exact h3

/-- Witness for C2: flag `db-dsn` with default `"default"`, the entry
`DB_DSN=postgres://localhost`, no arguments. -/
theorem parseWithFlagSet_env_populates_witness :
    flagOf (ParseWithFlagSet exampleLower BuiltinValue.Set
        (["HOME=/root"] ++ "DB_DSN=postgres://localhost" :: ["FOO_BAR=a,b"])
        (some exampleFlags) []).1 (flagNameOf exampleLower "DB_DSN")
      = some { stringFlag "db-dsn" "default" with
          Value := (BuiltinValue.Set (BuiltinValue.stringValue "default")
            "postgres://localhost").1 } :=
  parseWithFlagSet_env_populates exampleLower BuiltinValue.Set exampleFlags ["HOME=/root"] ["FOO_BAR=a,b"] []
    "DB_DSN=postgres://localhost" "DB_DSN" "postgres://localhost" (stringFlag "db-dsn" "default")
    (by decide) (by decide) (by decide) (by decide) (by decide) (by decide) (by decide)
    (by decide)

/-- Counterexample to C2: with `DB_DSN=a` followed by `db_dsn=b` the flag
`db-dsn` ends as `"b"`, not as the converted `"a"`; and with the rejected
`DRY_RUN=maybe` before `DB_DSN=a` the flag keeps its default. In both
environments the entry `DB_DSN=a` meets the conditions of the claim. -/
theorem env_entry_not_final :
    valueOf (ParseWithFlagSet exampleLower BuiltinValue.Set ["DB_DSN=a", "db_dsn=b"]
        (some exampleFlags) []).1 "db-dsn" = some (BuiltinValue.stringValue "b") ∧
    valueOf (ParseWithFlagSet exampleLower BuiltinValue.Set ["DRY_RUN=maybe", "DB_DSN=a"]
        (some exampleFlags) []).1 "db-dsn" = some (BuiltinValue.stringValue "default") ∧
    overlayTarget exampleLower exampleFlags "DB_DSN=a" = some (stringFlag "db-dsn" "default", "a") ∧
    BuiltinValue.Set (BuiltinValue.stringValue "default") "a"
      = (BuiltinValue.stringValue "a", none) := by
  decide

theorem cutAt_append (sep : Char) (v : List Char) :
    ∀ k : List Char, sep ∉ k → cutAt sep (k ++ sep :: v) = some (k, v) := by
  intro k
  induction k with
  | nil => intro _; simp [cutAt]
  | cons c k ih =>
    intro h
    have hc : ¬ c = sep := fun e => h (e ▸ List.mem_cons_self _ _)
    have hk : sep ∉ k := fun e => h (List.mem_cons_of_mem _ e)
    simp [cutAt, hc, ih hk]

theorem cutAt_none (sep : Char) : ∀ k : List Char, sep ∉ k → cutAt sep k = none := by
  intro k
  induction k with
  | nil => intro _; rfl
  | cons c k ih =>
    intro h
    have hc : ¬ c = sep := fun e => h (e ▸ List.mem_cons_self _ _)
    have hk : sep ∉ k := fun e => h (List.mem_cons_of_mem _ e)
    simp [cutAt, hc, ih hk]

theorem set_ok (vset : V → String → V × Option E) (fs : FlagSet V) (n y : String)
    (g : Flag V) (hl : fs.Lookup n = some g) (hvalid : (vset g.Value y).2 = none) :
    fs.Set vset n y
      = (fs.store n { g with Value := (vset g.Value y).1, Changed := true }, none) := by
  simp [FlagSet.Set, hl, hvalid]

theorem parse_long_eq (vset : V → String → V × Option E) (fs : FlagSet V) (n y : String)
    (g : Flag V) (c : Char) (cs : List Char) (hl : fs.Lookup n = some g)
    (hn : n.data = c :: cs) (hc1 : c ≠ '-') (hc2 : c ≠ '=') (hneq : '=' ∉ n.data)
    (hvalid : (vset g.Value y).2 = none) :
    fs.Parse vset ["--" ++ n ++ "=" ++ y]
      = (({ fs with args := [] } : FlagSet V).store n
          { g with Value := (vset g.Value y).1, Changed := true }, none) := by
  have hname := lookup_name fs n g hl
  have hs : ("--" ++ n ++ "=" ++ y).data = '-' :: '-' :: (n.data ++ '=' :: y.data) := by
    simp [String.data_append]
  have hcut := cutAt_append '=' y.data n.data hneq
  have hl1 : ({ fs with args := [] } : FlagSet V).Lookup n = some g := hl
  have hset := set_ok vset ({ fs with args := [] } : FlagSet V) n y g hl1 hvalid
  have hne : n.data ++ '=' :: y.data ≠ [] := by simp
  unfold FlagSet.Parse
  rw [parseArgs, hs]
  simp only [ne_eq, not_true_eq_false, if_false, if_true, hne]
  have hlong : parseLongArg vset ({ fs with args := [] } : FlagSet V)
      ("--" ++ n ++ "=" ++ y) []
      = (({ fs with args := [] } : FlagSet V).store n
          { g with Value := (vset g.Value y).1, Changed := true }, false, none) := by
    unfold parseLongArg
    rw [hs]
    simp only [List.drop]
    rw [hn] at hcut ⊢
    simp only [List.cons_append] at hcut ⊢
    simp only [hc1, hc2, or_self, if_false, SplitN, hcut, List.headD]
    rw [← hn]
    simp only [hl1, hname, hset]
  rw [hlong]
  simp only [parseArgs]

theorem parse_long_sep (vset : V → String → V × Option E) (fs : FlagSet V) (n y : String)
    (g : Flag V) (c : Char) (cs : List Char) (hl : fs.Lookup n = some g)
    (hn : n.data = c :: cs) (hc1 : c ≠ '-') (hc2 : c ≠ '=') (hneq : '=' ∉ n.data)
    (hno : g.NoOptDefVal = "") (hvalid : (vset g.Value y).2 = none) :
    fs.Parse vset ["--" ++ n, y]
      = (({ fs with args := [] } : FlagSet V).store n
          { g with Value := (vset g.Value y).1, Changed := true }, none) := by
  have hname := lookup_name fs n g hl
  have hs : ("--" ++ n).data = '-' :: '-' :: n.data := by
    simp [String.data_append]
  have hcut := cutAt_none '=' n.data hneq
  have hl1 : ({ fs with args := [] } : FlagSet V).Lookup n = some g := hl
  have hset := set_ok vset ({ fs with args := [] } : FlagSet V) n y g hl1 hvalid
  have hne : n.data ≠ [] := by rw [hn]; simp
  have hmk : String.mk n.data = n := rfl
  unfold FlagSet.Parse
  rw [parseArgs, hs]
  simp only [ne_eq, not_true_eq_false, if_false, if_true, hne]
  have hlong : parseLongArg vset ({ fs with args := [] } : FlagSet V) ("--" ++ n) [y]
      = (({ fs with args := [] } : FlagSet V).store n
          { g with Value := (vset g.Value y).1, Changed := true }, true, none) := by
    unfold parseLongArg
    rw [hs]
    simp only [List.drop]
    rw [hn] at hcut ⊢
    simp only [hc1, hc2, or_self, if_false, SplitN, hcut, List.headD]
    rw [← hn, hmk]
    simp only [hl1, hname, hset, hno, ne_eq, not_true_eq_false, if_false]
  rw [hlong]
  simp only [parseArgs]

theorem overlayEntry_lookup_inv (vset : V → String → V × Option E) (K : V → Prop)
    (hstep : ∀ (w : V) (x : String), K w → K (vset w x).1) (n : String) (f : Flag V)
    (fs : FlagSet V) (v : String) (w : V) (hw : K w)
    (hl : fs.Lookup n = some { f with Value := w }) :
    ∃ w1 : V, K w1 ∧ (overlayEntry tbl vset fs v).1.Lookup n = some { f with Value := w1 } := by
  rw [overlayEntry_eq]
  cases ht : overlayTarget tbl fs v with
  | none => exact ⟨w, hw, hl⟩
  | some p =>
    obtain ⟨fn, val⟩ := p
    obtain ⟨hfn, _, _⟩ := overlayTarget_some tbl fs v fn val ht
    by_cases hne : n = fn.Name
    · subst hne
      rw [hfn] at hl
      have hfn1 : fn = { f with Value := w } := by simpa using hl
      refine ⟨(vset fn.Value val).1, ?_, ?_⟩
      · rw [hfn1]; exact hstep w val hw
      · have h2 := lookup_store_eq fs fn.Name fn { fn with Value := (vset fn.Value val).1 }
          rfl hfn
        rw [hfn1] at h2 ⊢
        exact h2
    · exact ⟨w, hw, (lookup_store_ne fs fn.Name n
        { fn with Value := (vset fn.Value val).1 } rfl hne).trans hl⟩

theorem overlayLoop_lookup_inv (vset : V → String → V × Option E) (K : V → Prop)
    (hstep : ∀ (w : V) (x : String), K w → K (vset w x).1) (n : String) (f : Flag V)
    (env : List String) :
    ∀ (fs : FlagSet V) (w : V), K w → fs.Lookup n = some { f with Value := w } →
      ∃ w1 : V, K w1 ∧ (overlayLoop tbl vset fs env).1.Lookup n = some { f with Value := w1 } := by
  induction env with
  | nil => intro fs w hw hl; exact ⟨w, hw, hl⟩
  | cons v rest ih =>
    intro fs w hw hl
    obtain ⟨w1, hw1, hl1⟩ := overlayEntry_lookup_inv tbl vset K hstep n f fs v w hw hl
    simp only [overlayLoop]
    rcases hr : overlayEntry tbl vset fs v with ⟨fs1, err⟩
    rw [hr] at hl1
    cases err with
    | some e => exact ⟨w1, hw1, hl1⟩
    | none => exact ih fs1 w1 hw1 hl1

/-- C1, as the code has it: for a flag of a type `K` whose Set overwrites
the cell (the cell after Set of `y` is the same for every cell of the type,
as for every scalar type), when no Set of the environment pass fails and the
arguments are exactly `--n=y`, or `--n y` for a flag that requires an
argument, with `y` accepted by the flag, ParseWithFlagSet succeeds and the
flag holds the cell that Set makes of `y` and is marked changed, whatever the
environment had set. -/
theorem parseWithFlagSet_args_win (vset : V → String → V × Option E) (fs : FlagSet V)
    (env args : List String) (n y : String) (f : Flag V) (c : Char) (cs : List Char)
    (K : V → Prop)
    (hf : fs.Lookup n = some f)
    (hn : n.data = c :: cs) (hc1 : c ≠ '-') (hc2 : c ≠ '=') (hneq : '=' ∉ n.data)
    (hK : K f.Value) (hstep : ∀ (w : V) (x : String), K w → K (vset w x).1)
    (hover : ∀ w : V, K w → vset w y = vset f.Value y)
    (hvalid : (vset f.Value y).2 = none)
    (henv : (overlayLoop tbl vset fs env).2 = none)
    (hargs : args = ["--" ++ n ++ "=" ++ y] ∨ (f.NoOptDefVal = "" ∧ args = ["--" ++ n, y])) :
    (ParseWithFlagSet tbl vset env (some fs) args).2 = none ∧
      flagOf (ParseWithFlagSet tbl vset env (some fs) args).1 n
        = some { f with Value := (vset f.Value y).1, Changed := true } := by
  obtain ⟨w, hKw, hw⟩ := overlayLoop_lookup_inv tbl vset K hstep n f env fs f.Value hK hf
  have hname := lookup_name fs n f hf
  simp only [ParseWithFlagSet]
  rcases hr : overlayLoop tbl vset fs env with ⟨fs1, err⟩
  rw [hr] at hw henv
  simp only at henv hw
  subst henv
  simp only []
  have hv1 : (vset ({ f with Value := w } : Flag V).Value y).2 = none := by
    simp only [hover w hKw]; exact hvalid
  have hstore : (({ fs1 with args := [] } : FlagSet V).store n
        { ({ f with Value := w } : Flag V) with
          Value := (vset ({ f with Value := w } : Flag V).Value y).1, Changed := true }).Lookup n
      = some { f with Value := (vset f.Value y).1, Changed := true } := by
    have h2 := lookup_store_eq ({ fs1 with args := [] } : FlagSet V) n { f with Value := w }
      { f with Value := (vset f.Value y).1, Changed := true } hname hw
    simp only [hover w hKw]
    exact h2
  cases hargs with
  | inl h =>
    subst h
    rw [parse_long_eq vset fs1 n y _ c cs hw hn hc1 hc2 hneq hv1]
    exact ⟨rfl, hstore⟩
  | inr h =>
    obtain ⟨hno, h⟩ := h
    subst h
    rw [parse_long_sep vset fs1 n y _ c cs hw hn hc1 hc2 hneq hno hv1]
    exact ⟨rfl, hstore⟩

/-- Witness for C1: `DB_DSN=x` in the environment and `--db-dsn y` in the
arguments leave `db-dsn` at `"y"`. -/
theorem parseWithFlagSet_args_win_witness :
    (ParseWithFlagSet exampleLower BuiltinValue.Set ["DB_DSN=x"] (some exampleFlags) ["--db-dsn", "y"]).2
        = none ∧
      flagOf (ParseWithFlagSet exampleLower BuiltinValue.Set ["DB_DSN=x"] (some exampleFlags)
          ["--db-dsn", "y"]).1 "db-dsn"
        = some { stringFlag "db-dsn" "default" with
            Value := (BuiltinValue.Set (BuiltinValue.stringValue "default") "y").1,
            Changed := true } :=
  parseWithFlagSet_args_win exampleLower BuiltinValue.Set exampleFlags ["DB_DSN=x"] ["--db-dsn", "y"]
    "db-dsn" "y" (stringFlag "db-dsn" "default") 'd' "b-dsn".data
    (fun w => ∃ s, w = BuiltinValue.stringValue s)
    (by decide) (by decide) (by decide) (by decide) (by decide)
    ⟨"default", rfl⟩ (fun _ x h => h.elim (fun _ e => ⟨x, by rw [e]; rfl⟩))
    (fun _ h => h.elim (fun _ e => by rw [e]; rfl)) (by decide) (by decide)
    (Or.inr ⟨by decide, by decide⟩)

/-- Counterexample to C1: with `FOO_BAR=x` in the environment and
`--foo-bar y` in the arguments the call succeeds and the string-list flag
`foo-bar` ends as the combination `[x, y]`, not as `[y]`. -/
theorem string_list_combines_env_and_args :
    (ParseWithFlagSet exampleLower BuiltinValue.Set ["FOO_BAR=x"] (some exampleFlags)
        ["--foo-bar", "y"]).2 = none ∧
    valueOf (ParseWithFlagSet exampleLower BuiltinValue.Set ["FOO_BAR=x"] (some exampleFlags)
        ["--foo-bar", "y"]).1 "foo-bar"
      = some (BuiltinValue.stringSliceValue ["x", "y"] true) ∧
    valueOf (ParseWithFlagSet exampleLower BuiltinValue.Set [] (some exampleFlags)
        ["--foo-bar", "y"]).1 "foo-bar"
      = some (BuiltinValue.stringSliceValue ["y"] true) := by
  decide

theorem overlayTarget_refers (fs : FlagSet V) (v n : String) (fn : Flag V) (val : String)
    (h : overlayTarget tbl fs v = some (fn, val)) :
    (fn.Name = n ↔ entryRefers tbl v n = true) ∧ isUnchanged fs fn.Name = true := by
  obtain ⟨hl, hc, key, hs, hk, hname⟩ := overlayTarget_some tbl fs v fn val h
  constructor
  · simp [entryRefers, hs, hk, hname]
  · simp [isUnchanged, hl, hc]

theorem overlayTarget_none_refers (fs : FlagSet V) (v n : String)
    (h : overlayTarget tbl fs v = none) (hr : entryRefers tbl v n = true) :
    isUnchanged fs n = false := by
  unfold entryRefers at hr
  unfold overlayTarget at h
  split at hr
  · rename_i key val hs
    simp only [Bool.and_eq_true, decide_eq_true_eq] at hr
    obtain ⟨hk, hn⟩ := hr
    rw [hs] at h
    simp only [hk, if_true, hn] at h
    unfold isUnchanged
    cases hl : fs.Lookup n with
    | none => rfl
    | some f =>
      rw [hl] at h
      by_cases hc : f.Changed = true
      · simp [hc]
      · simp [hc] at h
  · exact Bool.noConfusion hr

theorem overlayEntry_isUnchanged (vset : V → String → V × Option E) (fs : FlagSet V)
    (v n : String) : isUnchanged (overlayEntry tbl vset fs v).1 n = isUnchanged fs n := by
  have h := lookup_map_congr (fun g => g.Changed) n fs (overlayEntry tbl vset fs v).1
    (overlayEntry_map tbl vset (fun g => (g.Name, g.Changed)) (fun _ _ => rfl) fs v)
  unfold isUnchanged
  cases h1 : (overlayEntry tbl vset fs v).1.Lookup n <;> cases h2 : fs.Lookup n <;>
    simp [h1, h2] at h ⊢
  exact h

theorem writesTo_le (vset : V → String → V × Option E) (n : String) (env : List String) :
    ∀ fs : FlagSet V,
      writesTo tbl vset fs env n ≤ if isUnchanged fs n = true then countRefs tbl env n else 0 := by
  induction env with
  | nil => intro fs; simp [writesTo, overlayCalls, countRefs]
  | cons v rest ih =>
    intro fs
    have ih1 := ih (overlayEntry tbl vset fs v).1
    rw [overlayEntry_isUnchanged] at ih1
    have hmono : (if isUnchanged fs n = true then countRefs tbl rest n else 0)
        ≤ if isUnchanged fs n = true then countRefs tbl (v :: rest) n else 0 := by
      split
      · simp only [countRefs, List.countP_cons]; omega
      · exact Nat.le_refl _
    unfold writesTo at ih1 ⊢
    simp only [overlayCalls]
    cases ht : overlayTarget tbl fs v with
    | none => exact Nat.le_trans ih1 hmono
    | some p =>
      obtain ⟨fn, val⟩ := p
      obtain ⟨href, hun⟩ := overlayTarget_refers tbl fs v n fn val ht
      simp only []
      cases hv : (vset fn.Value val).2 with
      | some e => simp
      | none =>
        simp only [List.countP_cons]
        by_cases hn : fn.Name = n
        · have hr := href.mp hn
          rw [hn] at hun
          simp only [hun, if_true, countRefs, List.countP_cons, hr, hn, decide_True,
            Bool.and_self] at ih1 ⊢
          omega
        · simp only [hn, decide_False, Bool.false_and]
          exact Nat.le_trans (by simpa using ih1) hmono

theorem writesTo_eq (vset : V → String → V × Option E) (n : String) (env : List String) :
    ∀ fs : FlagSet V, (overlayLoop tbl vset fs env).2 = none →
      writesTo tbl vset fs env n = if isUnchanged fs n = true then countRefs tbl env n else 0 := by
  induction env with
  | nil => intro fs _; simp [writesTo, overlayCalls, countRefs]
  | cons v rest ih =>
    intro fs hok
    have ih1 := ih (overlayEntry tbl vset fs v).1
    rw [overlayEntry_isUnchanged] at ih1
    have he := overlayEntry_eq tbl vset fs v
    simp only [overlayLoop] at hok
    unfold writesTo at ih1 ⊢
    simp only [overlayCalls]
    cases ht : overlayTarget tbl fs v with
    | none =>
      rw [ht] at he
      simp only [] at he
      rw [he] at hok ih1
      simp only [] at hok ih1
      rw [he]
      simp only []
      rw [ih1 hok]
      by_cases hr : entryRefers tbl v n = true
      · rw [overlayTarget_none_refers tbl fs v n ht hr]; simp
      · simp [countRefs, List.countP_cons, hr]
    | some p =>
      obtain ⟨fn, val⟩ := p
      obtain ⟨href, hun⟩ := overlayTarget_refers tbl fs v n fn val ht
      rw [ht] at he
      simp only [] at he
      cases hv : (vset fn.Value val).2 with
      | some e =>
        rw [he] at hok
        simp [hv] at hok
      | none =>
        rw [hv] at he
        rw [he] at hok ih1 ⊢
        simp only [] at hok ih1 ⊢
        simp only [hv, List.countP_cons]
        rw [ih1 hok]
        by_cases hn : fn.Name = n
        · have hr := href.mp hn
          rw [hn] at hun
          simp [hun, countRefs, List.countP_cons, hr, hn]
        · have hr : ¬ entryRefers tbl v n = true := fun h => hn (href.mpr h)
          simp [countRefs, List.countP_cons, hr, hn]

theorem writesTo_eq_length (vset : V → String → V × Option E) (n : String)
    (env : List String) :
    ∀ fs : FlagSet V, writesTo tbl vset fs env n = (writtenTexts tbl vset fs env n).length := by
  induction env with
  | nil => intro fs; rfl
  | cons v rest ih =>
    intro fs
    have ih1 := ih (overlayEntry tbl vset fs v).1
    unfold writesTo at ih1 ⊢
    simp only [overlayCalls, writtenTexts]
    cases ht : overlayTarget tbl fs v with
    | none => exact ih1
    | some p =>
      obtain ⟨fn, val⟩ := p
      simp only []
      cases hv : (vset fn.Value val).2 with
      | some e => simp
      | none =>
        by_cases hn : fn.Name = n
        · simp [List.countP_cons, hn, ih1]
        · simp [List.countP_cons, hn, ih1]

theorem overlayLoop_cell (vset : V → String → V × Option E) (n : String) (env : List String) :
    ∀ (fs : FlagSet V) (f : Flag V), fs.Lookup n = some f →
      (overlayLoop tbl vset fs env).2 = none →
      (overlayLoop tbl vset fs env).1.Lookup n
        = some { f with
            Value := (writtenTexts tbl vset fs env n).foldl (fun w x => (vset w x).1) f.Value } := by
  induction env with
  | nil => intro fs f hf _; exact hf
  | cons v rest ih =>
    intro fs f hf hok
    have he := overlayEntry_eq tbl vset fs v
    simp only [overlayLoop] at hok ⊢
    simp only [writtenTexts]
    cases ht : overlayTarget tbl fs v with
    | none =>
      rw [ht] at he
      simp only [] at he
      rw [he] at hok ⊢
      exact ih fs f hf hok
    | some p =>
      obtain ⟨fn, val⟩ := p
      obtain ⟨hl, _, _⟩ := overlayTarget_some tbl fs v fn val ht
      rw [ht] at he
      simp only [] at he
      cases hv : (vset fn.Value val).2 with
      | some e =>
        rw [he] at hok
        simp [hv] at hok
      | none =>
        rw [hv] at he
        rw [he] at hok ⊢
        simp only [] at hok ⊢
        by_cases hn : fn.Name = n
        · subst hn
          have hfn : fn = f := by
            rw [hf] at hl
            exact (Option.some.inj hl).symm
          subst hfn
          simp only [hv, eq_self_iff_true, if_true, List.foldl_cons]
          have h2 := lookup_store_eq fs fn.Name fn { fn with Value := (vset fn.Value val).1 }
            rfl hf
          exact ih _ { fn with Value := (vset fn.Value val).1 } h2 hok
        · simp only [hv, hn, if_false]
          have h2 := (lookup_store_ne fs fn.Name n { fn with Value := (vset fn.Value val).1 }
            rfl (fun e => hn e.symm)).trans hf
          exact ih _ f h2 hok

/-- C7, as the code has it: during one ParseWithFlagSet call the number of
environment entries written into a flag is 0 when the flag is undeclared or
marked changed at the start, and otherwise at most the number of entries
that refer to it. When no Set fails it is exactly that number, one write
for each such entry, and the writes are in the collection: the flag ends
with the cell obtained from its cell at the start by Set of the written
values, one after the other in the order of the environment. -/
theorem overlay_writes_count (vset : V → String → V × Option E) (fs : FlagSet V)
    (env : List String) (n : String) :
    writesTo tbl vset fs env n
        ≤ (if isUnchanged fs n = true then countRefs tbl env n else 0) ∧
      writesTo tbl vset fs env n = (writtenTexts tbl vset fs env n).length ∧
      ((overlayLoop tbl vset fs env).2 = none →
        writesTo tbl vset fs env n
            = (if isUnchanged fs n = true then countRefs tbl env n else 0) ∧
          ∀ f : Flag V, fs.Lookup n = some f →
            (overlayLoop tbl vset fs env).1.Lookup n
              = some { f with
                  Value := (writtenTexts tbl vset fs env n).foldl
                    (fun w x => (vset w x).1) f.Value }) :=
  ⟨writesTo_le tbl vset n env fs, writesTo_eq_length tbl vset n env fs,
    fun hok => ⟨writesTo_eq tbl vset n env fs hok,
      fun f hf => overlayLoop_cell tbl vset n env fs f hf hok⟩⟩

/-- Counterexample to C7: with `DB_DSN=a` and `db_dsn=b` in the
environment, one call writes two entries into the flag `db-dsn`, first `a`
and then `b`, and leaves `"b"` in it. -/
theorem two_entries_written_to_one_flag :
    writesTo exampleLower BuiltinValue.Set exampleFlags ["DB_DSN=a", "db_dsn=b"] "db-dsn" = 2 ∧
    writtenTexts exampleLower BuiltinValue.Set exampleFlags ["DB_DSN=a", "db_dsn=b"] "db-dsn"
      = ["a", "b"] ∧
    (overlayLoop exampleLower BuiltinValue.Set exampleFlags ["DB_DSN=a"]).1
      = { formal := [{ stringFlag "db-dsn" "default" with
                Value := BuiltinValue.stringValue "a" },
              boolFlag "verbose" false, stringSliceFlag "foo-bar" [], boolFlag "dry-run" false],
          args := [] } ∧
    ParseWithFlagSet exampleLower BuiltinValue.Set ["DB_DSN=a", "db_dsn=b"]
        (some exampleFlags) []
      = (some { formal := [{ stringFlag "db-dsn" "default" with
                    Value := BuiltinValue.stringValue "b" },
                  boolFlag "verbose" false, stringSliceFlag "foo-bar" [],
                  boolFlag "dry-run" false],
                args := [] },
        none) := by
  decide

theorem storeFlag_comm (a b : String) (ga gb : Flag V) (ha : ga.Name = a) (hb : gb.Name = b)
    (hab : a ≠ b) :
    ∀ l : List (Flag V),
      storeFlag a ga (storeFlag b gb l) = storeFlag b gb (storeFlag a ga l) := by
  intro l
  induction l with
  | nil => rfl
  | cons f t ih =>
    by_cases h1 : f.Name = a
    · have h2 : ¬ f.Name = b := fun e => hab (h1 ▸ e)
      have h3 : ¬ ga.Name = b := fun e => hab (ha ▸ e)
      have h4 : ¬ a = b := hab
      simp only [storeFlag, h1, h2, h3, h4, if_true, if_false]
    · by_cases h2 : f.Name = b
      · have h3 : ¬ gb.Name = a := fun e => hab (hb ▸ e).symm
        have h4 : ¬ b = a := fun e => hab e.symm
        simp only [storeFlag, h1, h2, h3, h4, if_true, if_false]
      · simp only [storeFlag, h1, h2, ih, if_false]

theorem overlayTarget_of_refers (fs : FlagSet V) (u n : String) (fn : Flag V)
    (hr : entryRefers tbl u n = true) (hl : fs.Lookup n = some fn) (hc : fn.Changed = false) :
    ∃ val, overlayTarget tbl fs u = some (fn, val) := by
  unfold entryRefers at hr
  unfold overlayTarget
  split at hr
  · rename_i key val hs
    simp only [Bool.and_eq_true, decide_eq_true_eq] at hr
    obtain ⟨hk, hn⟩ := hr
    exact ⟨val, by simp [hk, hn, hl, hc]⟩
  · exact Bool.noConfusion hr

theorem overlayTarget_store (fs : FlagSet V) (a : String) (g : Flag V) (hg : g.Name = a)
    (u : String) (h : entryRefers tbl u a = false) :
    overlayTarget tbl (fs.store a g) u = overlayTarget tbl fs u := by
  unfold entryRefers at h
  unfold overlayTarget
  split
  · rename_i key val hs
    rw [hs] at h
    by_cases hk : Contains key '_' = true
    · simp only [hk, Bool.true_and, decide_eq_false_iff_not] at h
      simp only [hk, if_true]
      rw [lookup_store_ne fs a (flagNameOf tbl key) g hg h]
    · simp [hk]
  · rfl

theorem applyEntry_comm (vset : V → String → V × Option E) (fs0 : FlagSet V) (x y : String)
    (h : x = y ∨ targetName tbl fs0 x = none ∨ targetName tbl fs0 x ≠ targetName tbl fs0 y)
    (z : FlagSet V) :
    applyEntry tbl vset fs0 (applyEntry tbl vset fs0 z x) y
      = applyEntry tbl vset fs0 (applyEntry tbl vset fs0 z y) x := by
  rcases h with h | h | h
  · rw [h]
  · unfold targetName at h
    unfold applyEntry
    cases hx : overlayTarget tbl fs0 x with
    | none => rfl
    | some p => rw [hx] at h; simp at h
  · unfold targetName at h
    unfold applyEntry
    cases hx : overlayTarget tbl fs0 x with
    | none => rfl
    | some p =>
      cases hy : overlayTarget tbl fs0 y with
      | none => rfl
      | some q =>
        obtain ⟨fx, vx⟩ := p
        obtain ⟨fy, vy⟩ := q
        rw [hx, hy] at h
        have hne : fy.Name ≠ fx.Name := fun e => h (by simp [e])
        exact congrArg (fun l => ({ formal := l, args := z.args } : FlagSet V))
          (storeFlag_comm fy.Name fx.Name { fy with Value := (vset fy.Value vy).1 }
            { fx with Value := (vset fx.Value vx).1 } rfl rfl hne z.formal)

theorem overlayLoop_eq_foldl (vset : V → String → V × Option E) (fs0 : FlagSet V)
    (env : List String) :
    ∀ fs : FlagSet V, targetsDistinct tbl fs0 env →
      (∀ v ∈ env, ∀ (fn : Flag V) (val : String),
        overlayTarget tbl fs0 v = some (fn, val) → (vset fn.Value val).2 = none) →
      (∀ v ∈ env, overlayTarget tbl fs v = overlayTarget tbl fs0 v) →
      overlayLoop tbl vset fs env = (env.foldl (applyEntry tbl vset fs0) fs, none) := by
  induction env with
  | nil => intro fs _ _ _; rfl
  | cons v rest ih =>
    intro fs hd hs hag
    have hd1 := List.pairwise_cons.mp hd
    have hs1 : ∀ u ∈ rest, ∀ (fn : Flag V) (val : String),
        overlayTarget tbl fs0 u = some (fn, val) → (vset fn.Value val).2 = none :=
      fun u hu => hs u (List.mem_cons_of_mem _ hu)
    have hv := hag v (List.mem_cons_self _ _)
    have he := overlayEntry_eq tbl vset fs v
    rw [hv] at he
    simp only [overlayLoop, List.foldl_cons]
    cases ht : overlayTarget tbl fs0 v with
    | none =>
      rw [ht] at he
      simp only [] at he
      rw [he]
      simp only [applyEntry, ht]
      exact ih fs hd1.2 hs1 (fun u hu => hag u (List.mem_cons_of_mem _ hu))
    | some p =>
      obtain ⟨fn, val⟩ := p
      have hok := hs v (List.mem_cons_self _ _) fn val ht
      rw [ht] at he
      simp only [hok] at he
      rw [he]
      simp only [applyEntry, ht]
      refine ih _ hd1.2 hs1 ?_
      intro u hu
      have hR := hd1.1 u hu
      have hfn := overlayTarget_some tbl fs0 v fn val ht
      have href : entryRefers tbl u fn.Name = false := by
        cases hr : entryRefers tbl u fn.Name with
        | false => rfl
        | true =>
          exfalso
          obtain ⟨val1, h1⟩ := overlayTarget_of_refers tbl fs0 u fn.Name fn hr hfn.1 hfn.2.1
          simp [targetName, ht, h1] at hR
      exact (overlayTarget_store tbl fs fn.Name { fn with Value := (vset fn.Value val).1 } rfl u
        href).trans (hag u (List.mem_cons_of_mem _ hu))

theorem targetsDistinct_perm (fs : FlagSet V) (env env1 : List String) (h : env.Perm env1)
    (hd : targetsDistinct tbl fs env) : targetsDistinct tbl fs env1 := by
  unfold targetsDistinct at hd ⊢
  refine (List.Perm.pairwise_iff ?_ h).mp hd
  intro u v huv
  rcases huv with h1 | h1
  · by_cases h2 : targetName tbl fs v = none
    · exact Or.inl h2
    · exact Or.inr (fun e => h2 (e.trans h1))
  · exact Or.inr (fun e => h1 e.symm)

theorem setsSucceed_spec (vset : V → String → V × Option E) (fs : FlagSet V)
    (env : List String) (h : setsSucceed tbl vset fs env = true) :
    ∀ v ∈ env, ∀ (fn : Flag V) (val : String),
      overlayTarget tbl fs v = some (fn, val) → (vset fn.Value val).2 = none := by
  intro v hv fn val ht
  unfold setsSucceed at h
  rw [List.all_eq_true] at h
  have := h v hv
  rw [ht] at this
  simpa using this

/-- C9, as the code has it: when no two entries of the environment are
applied to the same flag and every Set they call for succeeds, ParseWithFlagSet
returns the same result and leaves the same flag collection for every
reordering of the environment. -/
theorem parseWithFlagSet_perm (vset : V → String → V × Option E) (fs : FlagSet V)
    (env env1 args : List String) (hperm : env.Perm env1)
    (hd : targetsDistinct tbl fs env) (hs : setsSucceed tbl vset fs env = true) :
    ParseWithFlagSet tbl vset env1 (some fs) args = ParseWithFlagSet tbl vset env (some fs) args := by
  have hd1 := targetsDistinct_perm tbl fs env env1 hperm hd
  have hs0 := setsSucceed_spec tbl vset fs env hs
  have hs1 : ∀ v ∈ env1, ∀ (fn : Flag V) (val : String),
      overlayTarget tbl fs v = some (fn, val) → (vset fn.Value val).2 = none :=
    fun v hv => hs0 v (hperm.mem_iff.mpr hv)
  have h0 := overlayLoop_eq_foldl tbl vset fs env fs hd hs0 (fun _ _ => rfl)
  have h1 := overlayLoop_eq_foldl tbl vset fs env1 fs hd1 hs1 (fun _ _ => rfl)
  have hsym : ∀ x ∈ env, ∀ y ∈ env, ∀ z : FlagSet V,
      applyEntry tbl vset fs (applyEntry tbl vset fs z x) y
        = applyEntry tbl vset fs (applyEntry tbl vset fs z y) x := by
    intro x hx y hy z
    apply applyEntry_comm
    by_cases hxy : x = y
    · exact Or.inl hxy
    · refine Or.inr (List.Pairwise.forall ?_ hd hx hy hxy)
      intro u v huv
      rcases huv with h2 | h2
      · by_cases h3 : targetName tbl fs v = none
        · exact Or.inl h3
        · exact Or.inr (fun e => h3 (e.trans h2))
      · exact Or.inr (fun e => h2 e.symm)
  have hfold := List.Perm.foldl_eq' hperm hsym fs
  simp only [ParseWithFlagSet, h0, h1, hfold]

/-- Witness for C9: three entries, two of them applied, to different
flags. -/
theorem parseWithFlagSet_perm_witness :
    ParseWithFlagSet exampleLower BuiltinValue.Set ["FOO_BAR=a", "DB_DSN=x", "HOME=/root"]
        (some exampleFlags) ["--verbose"]
      = ParseWithFlagSet exampleLower BuiltinValue.Set ["DB_DSN=x", "HOME=/root", "FOO_BAR=a"]
        (some exampleFlags) ["--verbose"] :=
  parseWithFlagSet_perm exampleLower BuiltinValue.Set exampleFlags
    ["DB_DSN=x", "HOME=/root", "FOO_BAR=a"] ["FOO_BAR=a", "DB_DSN=x", "HOME=/root"]
    ["--verbose"] (by decide) (by unfold targetsDistinct; decide) (by decide)

/-- Counterexample to C9: the environments `DB_DSN=a, db_dsn=b` and
`db_dsn=b, DB_DSN=a` are permutations of each other and leave `db-dsn` at
`"b"` and at `"a"`; and `DRY_RUN=maybe, DB_DSN=a` fails before `db-dsn` is
set while `DB_DSN=a, DRY_RUN=maybe` fails after it. -/
theorem env_order_matters :
    List.Perm ["DB_DSN=a", "db_dsn=b"] ["db_dsn=b", "DB_DSN=a"] ∧
    valueOf (ParseWithFlagSet exampleLower BuiltinValue.Set ["DB_DSN=a", "db_dsn=b"]
        (some exampleFlags) []).1 "db-dsn" = some (BuiltinValue.stringValue "b") ∧
    valueOf (ParseWithFlagSet exampleLower BuiltinValue.Set ["db_dsn=b", "DB_DSN=a"]
        (some exampleFlags) []).1 "db-dsn" = some (BuiltinValue.stringValue "a") ∧
    List.Perm ["DRY_RUN=maybe", "DB_DSN=a"] ["DB_DSN=a", "DRY_RUN=maybe"] ∧
    valueOf (ParseWithFlagSet exampleLower BuiltinValue.Set ["DRY_RUN=maybe", "DB_DSN=a"]
        (some exampleFlags) []).1 "db-dsn" = some (BuiltinValue.stringValue "default") ∧
    valueOf (ParseWithFlagSet exampleLower BuiltinValue.Set ["DB_DSN=a", "DRY_RUN=maybe"]
        (some exampleFlags) []).1 "db-dsn" = some (BuiltinValue.stringValue "a") := by
  decide

/-- Witness for C7: without a failing Set, each of the two entries that
refer to `foo-bar` is written once, and the flag ends with both values. -/
theorem overlay_writes_count_witness :
    writesTo exampleLower BuiltinValue.Set exampleFlags
        ["FOO_BAR=a", "DB_DSN=x", "foo_bar=b"] "foo-bar" = 2 ∧
    (overlayLoop exampleLower BuiltinValue.Set exampleFlags
        ["FOO_BAR=a", "DB_DSN=x", "foo_bar=b"]).1.Lookup "foo-bar"
      = some { stringSliceFlag "foo-bar" [] with
          Value := BuiltinValue.stringSliceValue ["a", "b"] true } :=
  ⟨(((overlay_writes_count exampleLower BuiltinValue.Set exampleFlags
        ["FOO_BAR=a", "DB_DSN=x", "foo_bar=b"] "foo-bar").2.2 (by decide)).1).trans (by decide),
    ((((overlay_writes_count exampleLower BuiltinValue.Set exampleFlags
        ["FOO_BAR=a", "DB_DSN=x", "foo_bar=b"] "foo-bar").2.2 (by decide)).2
        (stringSliceFlag "foo-bar" []) (by decide))).trans (by decide)⟩

theorem overlayLoop_ok_iff (vset : V → String → V × Option E) (env : List String) :
    ∀ fs : FlagSet V,
      (overlayLoop tbl vset fs env).2 = none ↔ ∀ c ∈ overlayCalls tbl vset fs env, c.2 = true := by
  induction env with
  | nil => intro fs; simp [overlayLoop, overlayCalls]
  | cons v rest ih =>
    intro fs
    have he := overlayEntry_eq tbl vset fs v
    simp only [overlayLoop, overlayCalls]
    cases ht : overlayTarget tbl fs v with
    | none =>
      rw [ht] at he
      simp only [] at he
      rw [he]
      exact ih fs
    | some p =>
      obtain ⟨fn, val⟩ := p
      rw [ht] at he
      simp only [] at he
      rw [he]
      cases hv : (vset fn.Value val).2 with
      | some e => simp [hv]
      | none =>
        simp only [hv, List.mem_cons, forall_eq_or_imp, true_and]
        exact ih _

theorem overlayEntry_skip (vset : V → String → V × Option E) (fs : FlagSet V) (v : String)
    (h : (SplitN v '=').length ≠ 2 ∨ Contains (envKey v) '_' = false ∨
      fs.Lookup (flagNameOf tbl (envKey v)) = none ∨
      ∃ f, fs.Lookup (flagNameOf tbl (envKey v)) = some f ∧ f.Changed = true) :
    overlayEntry tbl vset fs v = (fs, none) := by
  rw [overlayEntry_eq]
  cases ht : overlayTarget tbl fs v with
  | none => rfl
  | some p =>
    exfalso
    obtain ⟨fn, val⟩ := p
    obtain ⟨hl, hc, key, hs, hk, hname⟩ := overlayTarget_some tbl fs v fn val ht
    have hkey : envKey v = key := by simp [envKey, hs]
    rw [hkey, hname] at h
    rcases h with h | h | h | ⟨f, h1, h2⟩
    · simp [hs] at h
    · rw [hk] at h; exact Bool.noConfusion h
    · rw [hl] at h; exact Option.noConfusion h
    · rw [hl] at h1
      have : fn = f := by simpa using h1
      rw [this] at hc
      rw [hc] at h2
      exact Bool.noConfusion h2

/-- C11: for a collection that is present, ParseWithFlagSet returns an
error exactly when a Set called on a matched, not-changed flag fails, or
every such Set succeeds and the standard parse of the arguments fails; a
failing Set gives that Set's error, and when every Set succeeds the result
is exactly the result of the parse. An entry without `=`, with no
underscore in its key, matching no declared flag or matching a changed flag
leaves the collection as it is and produces no error. -/
theorem parseWithFlagSet_error_iff (vset : V → String → V × Option E) (fs : FlagSet V)
    (env args : List String) :
    ((ParseWithFlagSet tbl vset env (some fs) args).2 ≠ none ↔
      (∃ c ∈ overlayCalls tbl vset fs env, c.2 = false) ∨
        ((∀ c ∈ overlayCalls tbl vset fs env, c.2 = true) ∧
          ((overlayLoop tbl vset fs env).1.Parse vset args).2 ≠ none)) ∧
    ((∃ c ∈ overlayCalls tbl vset fs env, c.2 = false) →
      ∃ e, (overlayLoop tbl vset fs env).2 = some e ∧
        (ParseWithFlagSet tbl vset env (some fs) args).2 = some (Error.value e)) ∧
    ((∀ c ∈ overlayCalls tbl vset fs env, c.2 = true) →
      (ParseWithFlagSet tbl vset env (some fs) args).2
        = ((overlayLoop tbl vset fs env).1.Parse vset args).2) ∧
    (∀ (fs1 : FlagSet V) (v : String),
      ((SplitN v '=').length ≠ 2 ∨ Contains (envKey v) '_' = false ∨
        fs1.Lookup (flagNameOf tbl (envKey v)) = none ∨
        ∃ f, fs1.Lookup (flagNameOf tbl (envKey v)) = some f ∧ f.Changed = true) →
      overlayEntry tbl vset fs1 v = (fs1, none)) := by
  have hiff := overlayLoop_ok_iff tbl vset env fs
  have hfail : (∃ c ∈ overlayCalls tbl vset fs env, c.2 = false) ↔
      ¬ ∀ c ∈ overlayCalls tbl vset fs env, c.2 = true := by
    simp
  refine ⟨?_, ?_, ?_, fun fs1 v h => overlayEntry_skip tbl vset fs1 v h⟩
  · rw [hfail, ← hiff]
    simp only [ParseWithFlagSet]
    rcases hr : overlayLoop tbl vset fs env with ⟨fs1, err⟩
    cases err with
    | some e => simp
    | none => simp
  · intro h
    rw [hfail, ← hiff] at h
    simp only [ParseWithFlagSet]
    rcases hr : overlayLoop tbl vset fs env with ⟨fs1, err⟩
    rw [hr] at h
    cases err with
    | some e => exact ⟨e, rfl, rfl⟩
    | none => exact absurd rfl h
  · intro h
    rw [← hiff] at h
    simp only [ParseWithFlagSet]
    rcases hr : overlayLoop tbl vset fs env with ⟨fs1, err⟩
    rw [hr] at h
    simp only at h
    subst h
    rfl

/-- Witness for C11: every Set of the environment succeeds and the parse
rejects the unknown flag `--nope`; that error is the result. -/
theorem parseWithFlagSet_error_iff_witness :
    (ParseWithFlagSet exampleLower BuiltinValue.Set ["DB_DSN=x", "HOME=/root", "NO_SUCH=1"]
        (some exampleFlags) ["--nope"]).2 = some (Error.unknownFlag "nope") :=
  ((parseWithFlagSet_error_iff exampleLower BuiltinValue.Set exampleFlags
      ["DB_DSN=x", "HOME=/root", "NO_SUCH=1"] ["--nope"]).2.2.1 (by decide)).trans (by decide)

theorem splitN_first (K val : String) (h : '=' ∉ K.data) :
    SplitN (K ++ "=" ++ val) '=' = [K, val] := by
  have hs : (K ++ "=" ++ val).data = K.data ++ '=' :: val.data := by
    simp [String.data_append]
  unfold SplitN
  rw [hs, cutAt_append '=' val.data K.data h]

theorem splitN_none (v : String) (h : '=' ∉ v.data) : SplitN v '=' = [v] := by
  unfold SplitN
  rw [cutAt_none '=' v.data h]

/-- C13: an entry `K=val` with no `=` in `K` is split at that first `=`
only: the loop works with exactly `K` as the key and passes exactly `val`
(empty, or with further `=` in it) to Set; and an entry with no `=` at all
leaves the collection as it is and produces no error. -/
theorem overlayEntry_split (vset : V → String → V × Option E) (fs : FlagSet V) :
    (∀ K val : String, '=' ∉ K.data →
      SplitN (K ++ "=" ++ val) '=' = [K, val] ∧
      overlayEntry tbl vset fs (K ++ "=" ++ val) =
        if Contains K '_' = true then
          match fs.Lookup (flagNameOf tbl K) with
          | none => (fs, none)
          | some fn =>
            if fn.Changed = true then (fs, none)
            else (fs.store (flagNameOf tbl K) { fn with Value := (vset fn.Value val).1 },
              (vset fn.Value val).2)
        else (fs, none)) ∧
    (∀ v : String, '=' ∉ v.data → overlayEntry tbl vset fs v = (fs, none)) := by
  constructor
  · intro K val h
    have hs := splitN_first K val h
    refine ⟨hs, ?_⟩
    unfold overlayEntry flagNameOf
    rw [hs]
    by_cases hk : Contains K '_' = true
    · simp only [hk, not_true_eq_false, if_false, if_true]
    · simp [hk]
  · intro v h
    unfold overlayEntry
    rw [splitN_none v h]

/-- Witness for C13: the value of `DB_DSN=a=b=c` is `a=b=c`, and the entry
`DB_DSN` without `=` is skipped. -/
theorem overlayEntry_split_witness :
    overlayEntry exampleLower BuiltinValue.Set exampleFlags ("DB_DSN" ++ "=" ++ "a=b=c")
        = (exampleFlags.store "db-dsn"
            { stringFlag "db-dsn" "default" with Value := BuiltinValue.stringValue "a=b=c" },
          none) ∧
      overlayEntry exampleLower BuiltinValue.Set exampleFlags "DB_DSN" = (exampleFlags, none) :=
  ⟨((overlayEntry_split exampleLower BuiltinValue.Set exampleFlags).1 "DB_DSN" "a=b=c" (by decide)).2.trans
      (by decide),
    (overlayEntry_split exampleLower BuiltinValue.Set exampleFlags).2 "DB_DSN" (by decide)⟩

theorem mem_storeFlag (name : String) (g x : Flag V) :
    ∀ l : List (Flag V), x ∈ storeFlag name g l → x = g ∨ x ∈ l := by
  intro l
  induction l with
  | nil => intro h; simp [storeFlag] at h
  | cons a l ih =>
    intro h
    unfold storeFlag at h
    by_cases ha : a.Name = name
    · simp only [ha, if_true, List.mem_cons] at h
      rcases h with h | h
      · exact Or.inl h
      · exact Or.inr (List.mem_cons_of_mem _ h)
    · simp only [ha, if_false, List.mem_cons] at h
      rcases h with h | h
      · exact Or.inr (h ▸ List.mem_cons_self _ _)
      · exact (ih h).imp id (List.mem_cons_of_mem _)

theorem overlayLoop_never_fails (vset : V → String → V × Option E) (K : V → Prop)
    (hstep : ∀ (w : V) (x : String), K w → K (vset w x).1)
    (hacc : ∀ (w : V) (x : String), K w → (vset w x).2 = none) (env : List String) :
    ∀ fs : FlagSet V, (∀ f ∈ fs.formal, K f.Value) → (overlayLoop tbl vset fs env).2 = none := by
  induction env with
  | nil => intro fs _; rfl
  | cons v rest ih =>
    intro fs hall
    have he := overlayEntry_eq tbl vset fs v
    simp only [overlayLoop]
    cases ht : overlayTarget tbl fs v with
    | none =>
      rw [ht] at he
      simp only [] at he
      rw [he]
      exact ih fs hall
    | some p =>
      obtain ⟨fn, val⟩ := p
      obtain ⟨hl, _, _⟩ := overlayTarget_some tbl fs v fn val ht
      have hmem : fn ∈ fs.formal := List.mem_of_find?_eq_some hl
      have hK := hall fn hmem
      rw [ht] at he
      simp only [hacc fn.Value val hK] at he
      rw [he]
      refine ih _ ?_
      intro f hf
      rcases mem_storeFlag fn.Name _ f fs.formal hf with h | h
      · rw [h]; exact hstep fn.Value val hK
      · exact hall f h

/-- C14: on a collection all of whose flags are of a type whose Set accepts
every text (as string flags are), ParseWithFlagSet with an empty argument
list returns success for every environment whatsoever. -/
theorem parseWithFlagSet_strings_succeed (vset : V → String → V × Option E) (K : V → Prop)
    (fs : FlagSet V) (env : List String)
    (hstep : ∀ (w : V) (x : String), K w → K (vset w x).1)
    (hacc : ∀ (w : V) (x : String), K w → (vset w x).2 = none)
    (hall : ∀ f ∈ fs.formal, K f.Value) :
    (ParseWithFlagSet tbl vset env (some fs) []).2 = none := by
  have h := overlayLoop_never_fails tbl vset K hstep hacc env fs hall
  simp only [ParseWithFlagSet]
  rcases hr : overlayLoop tbl vset fs env with ⟨fs1, err⟩
  rw [hr] at h
  simp only at h
  subst h
  rfl

/-- Witness for C14: the single string flag `db-dsn` with default
`"default"`, under an environment with a matching entry, an unrelated one
and one without `=`. -/
theorem parseWithFlagSet_strings_succeed_witness :
    (ParseWithFlagSet exampleLower BuiltinValue.Set ["PATH=/bin", "DB_DSN=x", "A_B"]
        (some { formal := [stringFlag "db-dsn" "default"], args := [] }) []).2 = none :=
  parseWithFlagSet_strings_succeed exampleLower BuiltinValue.Set (fun w => ∃ s, w = BuiltinValue.stringValue s)
    { formal := [stringFlag "db-dsn" "default"], args := [] } ["PATH=/bin", "DB_DSN=x", "A_B"]
    (fun _ x h => h.elim (fun _ e => ⟨x, by rw [e]; rfl⟩))
    (fun _ _ h => h.elim (fun _ e => by rw [e]; rfl))
    (fun f hf => by
      rw [List.mem_singleton] at hf
      exact ⟨"default", by rw [hf]; rfl⟩)

theorem ofNat_not_upper (n : Nat) (h1 : 65 ≤ n) (h2 : n ≤ 90) :
    (Char.ofNat (n + 32)).isUpper = false := by
  interval_cases n <;> decide

theorem toLower_not_upper (c : Char) : (Char.toLower c).isUpper = false := by
  unfold Char.toLower
  simp only []
  split
  · rename_i h
    exact ofNat_not_upper c.toNat h.1 h.2
  · rename_i h
    cases hu : c.isUpper with
    | false => rfl
    | true =>
      exfalso
      apply h
      simp only [Char.isUpper, Bool.and_eq_true, decide_eq_true_eq] at hu
      have h1 : (65 : UInt32) ≤ c.val := hu.1
      have h2 : c.val ≤ (90 : UInt32) := hu.2
      rw [UInt32.le_def] at h1 h2
      exact ⟨h1, h2⟩

theorem isUpper_false_of_ge (c : Char) (h : 128 ≤ c.toNat) : c.isUpper = false := by
  cases hu : c.isUpper with
  | false => rfl
  | true =>
    exfalso
    simp only [Char.isUpper, Bool.and_eq_true, decide_eq_true_eq] at hu
    have h2 : c.val ≤ (90 : UInt32) := hu.2
    rw [UInt32.le_def] at h2
    have h3 : c.toNat ≤ 90 := h2
    omega

theorem toLowerRune_not_upper (htbl : ∀ c : Char, 128 ≤ c.toNat → (tbl c).isUpper = false)
    (c : Char) : (toLowerRune tbl c).isUpper = false := by
  unfold toLowerRune
  split
  · exact toLower_not_upper c
  · rename_i h
    exact htbl c (by omega)

theorem exampleLower_not_upper (c : Char) (h : 128 ≤ c.toNat) :
    (exampleLower c).isUpper = false := by
  unfold exampleLower
  split
  · decide
  · split
    · decide
    · exact isUpper_false_of_ge c h

theorem flagNameOf_data (key : String) :
    (flagNameOf tbl key).data
      = (key.data.map (toLowerRune tbl)).map (fun c => if c = '_' then '-' else c) := rfl

theorem flagNameOf_hyphen (key : String) (h : Contains key '_' = true) :
    '-' ∈ (flagNameOf tbl key).data ∧ '_' ∉ (flagNameOf tbl key).data := by
  rw [flagNameOf_data]
  have hmem : '_' ∈ key.data := by simpa [Contains] using h
  refine ⟨?_, ?_⟩
  · refine List.mem_map.mpr ⟨'_', List.mem_map.mpr ⟨'_', hmem, rfl⟩, by decide⟩
  · intro hx
    obtain ⟨y, _, hy⟩ := List.mem_map.mp hx
    by_cases h1 : y = '_'
    · rw [if_pos h1] at hy; exact absurd hy (by decide)
    · rw [if_neg h1] at hy; exact h1 hy

theorem flagNameOf_shape (htbl : ∀ c : Char, 128 ≤ c.toNat → (tbl c).isUpper = false)
    (key : String) (h : Contains key '_' = true) :
    '-' ∈ (flagNameOf tbl key).data ∧ '_' ∉ (flagNameOf tbl key).data ∧
      ∀ c ∈ (flagNameOf tbl key).data, c.isUpper = false := by
  rw [flagNameOf_data]
  have hmem : '_' ∈ key.data := by simpa [Contains] using h
  refine ⟨?_, ?_, ?_⟩
  · refine List.mem_map.mpr ⟨'_', List.mem_map.mpr ⟨'_', hmem, rfl⟩, by decide⟩
  · intro hx
    obtain ⟨y, _, hy⟩ := List.mem_map.mp hx
    by_cases h1 : y = '_'
    · rw [if_pos h1] at hy; exact absurd hy (by decide)
    · rw [if_neg h1] at hy; exact h1 hy
  · intro c hc
    obtain ⟨y, hy1, hy⟩ := List.mem_map.mp hc
    obtain ⟨z, _, hz⟩ := List.mem_map.mp hy1
    by_cases h1 : y = '_'
    · rw [if_pos h1] at hy; rw [← hy]; decide
    · rw [if_neg h1] at hy; rw [← hy, ← hz]; exact toLowerRune_not_upper tbl htbl z

theorem entryRefers_unreachable (htbl : ∀ c : Char, 128 ≤ c.toNat → (tbl c).isUpper = false)
    (v n : String)
    (hbad : '-' ∉ n.data ∨ '_' ∈ n.data ∨ ∃ c ∈ n.data, c.isUpper = true) :
    entryRefers tbl v n = false := by
  cases hr : entryRefers tbl v n with
  | false => rfl
  | true =>
    exfalso
    unfold entryRefers at hr
    split at hr
    · rename_i key val hs
      simp only [Bool.and_eq_true, decide_eq_true_eq] at hr
      obtain ⟨hk, hn⟩ := hr
      obtain ⟨h1, h2, h3⟩ := flagNameOf_shape tbl htbl key hk
      rw [hn] at h1 h2 h3
      rcases hbad with h | h | ⟨c, hc, hu⟩
      · exact h h1
      · exact h2 h
      · rw [h3 c hc] at hu; exact Bool.noConfusion hu
    · exact Bool.noConfusion hr

/-- C15: the flag name that the loop looks up always has a hyphen and has
no underscore and no uppercase ASCII letter; so a declared flag whose name
has no hyphen, or has an underscore or an uppercase ASCII letter, is never
written by the environment pass: after the loop it is as before, for every
collection and every environment. The Unicode case tables lower no rune to
an uppercase ASCII letter, which is all that is used of them. -/
theorem env_reaches_only_hyphenated (vset : V → String → V × Option E) (fs : FlagSet V)
    (env : List String) (n : String) (f : Flag V)
    (htbl : ∀ c : Char, 128 ≤ c.toNat → (tbl c).isUpper = false)
    (hf : fs.Lookup n = some f)
    (hbad : '-' ∉ n.data ∨ '_' ∈ n.data ∨ ∃ c ∈ n.data, c.isUpper = true) :
    (overlayLoop tbl vset fs env).1.Lookup n = some f ∧ writesTo tbl vset fs env n = 0 ∧
      ∀ key : String, Contains key '_' = true →
        '-' ∈ (flagNameOf tbl key).data ∧ '_' ∉ (flagNameOf tbl key).data ∧
          ∀ c ∈ (flagNameOf tbl key).data, c.isUpper = false := by
  have hav : envAvoids tbl env n = true := by
    unfold envAvoids
    rw [List.all_eq_true]
    intro v _
    rw [entryRefers_unreachable tbl htbl v n hbad]
    rfl
  refine ⟨overlayLoop_lookup tbl vset n f env fs hf (Or.inr hav), ?_, flagNameOf_shape tbl htbl⟩
  have hle := writesTo_le tbl vset n env fs
  have hz : countRefs tbl env n = 0 := by
    unfold countRefs
    rw [List.countP_eq_zero]
    intro v _
    rw [entryRefers_unreachable tbl htbl v n hbad]
    exact Bool.noConfusion
  rw [hz] at hle
  simp only [ite_self] at hle
  omega

/-- Witness for C15: the flag `verbose` has no hyphen; neither
`VERBOSE_=true` nor `_VERBOSE=true` nor `VER_BOSE=true` reaches it. -/
theorem env_reaches_only_hyphenated_witness :
    (overlayLoop exampleLower BuiltinValue.Set exampleFlags
        ["VERBOSE_=true", "_VERBOSE=true", "VER_BOSE=true"]).1.Lookup "verbose"
      = some (boolFlag "verbose" false) :=
  (env_reaches_only_hyphenated exampleLower BuiltinValue.Set exampleFlags
    ["VERBOSE_=true", "_VERBOSE=true", "VER_BOSE=true"] "verbose" (boolFlag "verbose" false)
    exampleLower_not_upper (by decide) (Or.inl (by decide))).1

theorem overlayLoop_skip_all (vset : V → String → V × Option E) (fs : FlagSet V)
    (env : List String) (h : ∀ v ∈ env, targetName tbl fs v = none) :
    overlayLoop tbl vset fs env = (fs, none) := by
  induction env with
  | nil => rfl
  | cons v rest ih =>
    have hv : overlayTarget tbl fs v = none := by
      have := h v (List.mem_cons_self _ _)
      unfold targetName at this
      cases ht : overlayTarget tbl fs v with
      | none => rfl
      | some p => rw [ht] at this; exact Option.noConfusion this
    have he := overlayEntry_eq tbl vset fs v
    rw [hv] at he
    simp only [] at he
    simp only [overlayLoop, he]
    exact ih (fun u hu => h u (List.mem_cons_of_mem _ hu))

/-- C12: when no environment entry has an underscore-containing key whose
flag name is that of a declared, not-changed flag, ParseWithFlagSet is the
standard parse of the arguments: the same result, the same flag collection
and the same leftover positional arguments. -/
theorem parseWithFlagSet_eq_parse (vset : V → String → V × Option E) (fs : FlagSet V)
    (env args : List String) (h : ∀ v ∈ env, targetName tbl fs v = none) :
    ParseWithFlagSet tbl vset env (some fs) args
      = (some (fs.Parse vset args).1, (fs.Parse vset args).2) := by
  simp only [ParseWithFlagSet, overlayLoop_skip_all tbl vset fs env h]

/-- Witness for C12: flags `name` (default `"default"`) and `count`
(default `0`) with the arguments `--name alice --count 5 rest` give
`name = "alice"`, `count = 5` and the leftover `rest`. -/
theorem parseWithFlagSet_eq_parse_witness :
    ParseWithFlagSet exampleLower BuiltinValue.Set ["HOME=/root", "NAME=bob", "DB_DSN=x"]
        (some { formal := [stringFlag "name" "default", intFlag "count" 0], args := [] })
        ["--name", "alice", "--count", "5", "rest"]
      = (some { formal :=
                  [{ stringFlag "name" "default" with
                      Value := BuiltinValue.stringValue "alice", Changed := true },
                    { intFlag "count" 0 with
                      Value := BuiltinValue.intValue 5, Changed := true }],
                args := ["rest"] },
          none) :=
  (parseWithFlagSet_eq_parse exampleLower BuiltinValue.Set
    { formal := [stringFlag "name" "default", intFlag "count" 0], args := [] }
    ["HOME=/root", "NAME=bob", "DB_DSN=x"] ["--name", "alice", "--count", "5", "rest"]
    (by decide)).trans (by decide)

theorem overlayLoop_prefix_ok (vset : V → String → V × Option E) (l1 l2 : List String) :
    ∀ fs : FlagSet V, (overlayLoop tbl vset fs (l1 ++ l2)).2 = none →
      (overlayLoop tbl vset fs l1).2 = none := by
  induction l1 with
  | nil => intro fs _; rfl
  | cons v rest ih =>
    intro fs h
    simp only [List.cons_append, overlayLoop] at h ⊢
    rcases hr : overlayEntry tbl vset fs v with ⟨fs1, err⟩
    rw [hr] at h
    cases err with
    | some e => exact h
    | none => exact ih fs1 h

theorem overlayEntry_apply (vset : V → String → V × Option E) (fs : FlagSet V)
    (v key val : String) (f : Flag V) (hsplit : SplitN v '=' = [key, val])
    (hkey : Contains key '_' = true) (hl : fs.Lookup (flagNameOf tbl key) = some f)
    (hch : f.Changed = false) :
    overlayEntry tbl vset fs v
      = (fs.store (flagNameOf tbl key) { f with Value := (vset f.Value val).1 },
          (vset f.Value val).2) := by
  unfold flagNameOf at hl ⊢
  simp [overlayEntry, hsplit, hkey, hl, hch]

theorem parseWithFlagSet_entry_last (vset : V → String → V × Option E) (fs : FlagSet V)
    (pre post args : List String) (v key val : String) (f : Flag V)
    (hsplit : SplitN v '=' = [key, val]) (hkey : Contains key '_' = true)
    (hl : (overlayLoop tbl vset fs pre).1.Lookup (flagNameOf tbl key) = some f)
    (hch : f.Changed = false) (hvalid : (vset f.Value val).2 = none)
    (hpre : (overlayLoop tbl vset fs pre).2 = none)
    (hpost : envAvoids tbl post (flagNameOf tbl key) = true)
    (hargs : argsName fs (flagNameOf tbl key) args = false) :
    flagOf (ParseWithFlagSet tbl vset (pre ++ v :: post) (some fs) args).1 (flagNameOf tbl key)
      = some { f with Value := (vset f.Value val).1 } := by
  have hv := overlayEntry_apply tbl vset (overlayLoop tbl vset fs pre).1 v key val f hsplit hkey hl hch
  rw [hvalid] at hv
  have hname := lookup_name _ _ f hl
  have h2 : ((overlayLoop tbl vset fs pre).1.store (flagNameOf tbl key)
      { f with Value := (vset f.Value val).1 }).Lookup (flagNameOf tbl key)
        = some { f with Value := (vset f.Value val).1 } :=
    lookup_store_eq _ _ f _ hname hl
  have h3 := overlayLoop_lookup tbl vset (flagNameOf tbl key) _ post _ h2 (Or.inr hpost)
  have hloop : overlayLoop tbl vset fs (pre ++ v :: post)
      = overlayLoop tbl vset ((overlayLoop tbl vset fs pre).1.store (flagNameOf tbl key)
          { f with Value := (vset f.Value val).1 }) post := by
    rw [overlayLoop_append tbl vset pre (v :: post) fs hpre]
    simp only [overlayLoop, hv]
  have hsig : sigOf (overlayLoop tbl vset fs (pre ++ v :: post)).1 = sigOf fs :=
    overlayLoop_map tbl vset (fun g => (g.Name, g.Shorthand)) (fun _ _ => rfl) _ fs
  rw [← hloop] at h3
  simp only [ParseWithFlagSet]
  rcases hr : overlayLoop tbl vset fs (pre ++ v :: post) with ⟨fs1, err⟩
  rw [hr] at h3 hsig
  cases err with
  | some e => exact h3
  | none =>
    simp only [flagOf]
    rw [parse_lookup vset fs1 _ args (by rw [argsName_congr fs fs1 _ args hsig]; exact hargs)]
    exact h3

theorem countRefs_avoids (env : List String) (n : String) (h : envAvoids tbl env n = true) :
    countRefs tbl env n = 0 := by
  unfold countRefs
  rw [List.countP_eq_zero]
  intro v hv
  unfold envAvoids at h
  rw [List.all_eq_true] at h
  have := h v hv
  simpa using this

theorem entryRefers_of_split (v key val : String) (hsplit : SplitN v '=' = [key, val])
    (hkey : Contains key '_' = true) : entryRefers tbl v (flagNameOf tbl key) = true := by
  simp [entryRefers, hsplit, hkey]

/-- C16, as the code has it: when the entries `k1=a` and, later, `k2=b` have
keys with the same flag name, that of a declared, not-changed flag whose Set
overwrites the cell, both values are accepted, no Set fails on an entry
before `k2=b`, no other entry refers to the flag and the arguments do not
name it, ParseWithFlagSet applies both entries in order (two writes into the
flag) and the flag ends with the value of the later entry. -/
theorem parseWithFlagSet_two_entries (vset : V → String → V × Option E) (fs : FlagSet V)
    (pre mid post args : List String) (v1 k1 a v2 k2 b : String) (f : Flag V)
    (hs1 : SplitN v1 '=' = [k1, a]) (hk1 : Contains k1 '_' = true)
    (hs2 : SplitN v2 '=' = [k2, b]) (hk2 : Contains k2 '_' = true)
    (hsame : flagNameOf tbl k2 = flagNameOf tbl k1)
    (hf : fs.Lookup (flagNameOf tbl k1) = some f) (hch : f.Changed = false)
    (hva : (vset f.Value a).2 = none) (hvb : (vset (vset f.Value a).1 b).2 = none)
    (hover : (vset (vset f.Value a).1 b).1 = (vset f.Value b).1)
    (hpre : (overlayLoop tbl vset fs (pre ++ v1 :: mid)).2 = none)
    (hother : envAvoids tbl (pre ++ mid ++ post) (flagNameOf tbl k1) = true)
    (hargs : argsName fs (flagNameOf tbl k1) args = false) :
    flagOf (ParseWithFlagSet tbl vset (pre ++ v1 :: mid ++ v2 :: post) (some fs) args).1
        (flagNameOf tbl k1) = some { f with Value := (vset f.Value b).1 } ∧
      writesTo tbl vset fs (pre ++ v1 :: mid ++ [v2]) (flagNameOf tbl k1) = 2 := by
  have hav : envAvoids tbl pre (flagNameOf tbl k1) = true ∧ envAvoids tbl mid (flagNameOf tbl k1) = true ∧
      envAvoids tbl post (flagNameOf tbl k1) = true := by
    simpa [envAvoids, List.all_append, and_assoc] using hother
  have hpre0 := overlayLoop_prefix_ok tbl vset pre (v1 :: mid) fs hpre
  have h1 := overlayLoop_lookup tbl vset (flagNameOf tbl k1) f pre fs hf (Or.inr hav.1)
  have hv1 := overlayEntry_apply tbl vset (overlayLoop tbl vset fs pre).1 v1 k1 a f hs1 hk1 h1 hch
  rw [hva] at hv1
  have hname := lookup_name fs _ f hf
  have h2 : ((overlayLoop tbl vset fs pre).1.store (flagNameOf tbl k1)
      { f with Value := (vset f.Value a).1 }).Lookup (flagNameOf tbl k1)
        = some { f with Value := (vset f.Value a).1 } :=
    lookup_store_eq _ _ f _ hname h1
  have h3 := overlayLoop_lookup tbl vset (flagNameOf tbl k1) _ mid _ h2 (Or.inr hav.2.1)
  have hloop : overlayLoop tbl vset fs (pre ++ v1 :: mid)
      = overlayLoop tbl vset ((overlayLoop tbl vset fs pre).1.store (flagNameOf tbl k1)
          { f with Value := (vset f.Value a).1 }) mid := by
    rw [overlayLoop_append tbl vset pre (v1 :: mid) fs hpre0]
    simp only [overlayLoop, hv1]
  rw [← hloop] at h3
  have henv : pre ++ v1 :: mid ++ v2 :: post = (pre ++ v1 :: mid) ++ v2 :: post := by simp
  have henv2 : pre ++ v1 :: mid ++ [v2] = (pre ++ v1 :: mid) ++ [v2] := by simp
  constructor
  · rw [henv, ← hover]
    have := parseWithFlagSet_entry_last tbl vset fs (pre ++ v1 :: mid) post args v2 k2 b
      { f with Value := (vset f.Value a).1 } hs2 hk2 (by rw [hsame]; exact h3) hch hvb hpre
      (by rw [hsame]; exact hav.2.2) (by rw [hsame]; exact hargs)
    rw [hsame] at this
    exact this
  · have hun : isUnchanged fs (flagNameOf tbl k1) = true := by simp [isUnchanged, hf, hch]
    have hv2 := overlayEntry_apply tbl vset (overlayLoop tbl vset fs (pre ++ v1 :: mid)).1 v2 k2 b
      { f with Value := (vset f.Value a).1 } hs2 hk2 (by rw [hsame]; exact h3) hch
    have hok : (overlayLoop tbl vset fs ((pre ++ v1 :: mid) ++ [v2])).2 = none := by
      rw [overlayLoop_append tbl vset (pre ++ v1 :: mid) [v2] fs hpre]
      simp only [overlayLoop, hv2, hvb]
    rw [henv2, writesTo_eq tbl vset (flagNameOf tbl k1) _ fs hok, hun]
    have hr1 := entryRefers_of_split tbl v1 k1 a hs1 hk1
    have hr2 := entryRefers_of_split tbl v2 k2 b hs2 hk2
    rw [hsame] at hr2
    have c1 := countRefs_avoids tbl pre _ hav.1
    have c2 := countRefs_avoids tbl mid _ hav.2.1
    unfold countRefs at c1 c2 ⊢
    simp [List.countP_append, List.countP_cons, c1, c2, hr1, hr2]

/-- Witness for C16: `DB_DSN=a` followed by `db_dsn=b`. -/
theorem parseWithFlagSet_two_entries_witness :
    flagOf (ParseWithFlagSet exampleLower BuiltinValue.Set
        (["HOME=/root"] ++ "DB_DSN=a" :: ["FOO_BAR=x"] ++ "db_dsn=b" :: ["DRY_RUN=maybe"])
        (some exampleFlags) ["--verbose"]).1 (flagNameOf exampleLower "DB_DSN")
      = some { stringFlag "db-dsn" "default" with
          Value := (BuiltinValue.Set (BuiltinValue.stringValue "default") "b").1 } ∧
    writesTo exampleLower BuiltinValue.Set exampleFlags
        (["HOME=/root"] ++ "DB_DSN=a" :: ["FOO_BAR=x"] ++ ["db_dsn=b"]) (flagNameOf exampleLower "DB_DSN")
      = 2 :=
  parseWithFlagSet_two_entries exampleLower BuiltinValue.Set exampleFlags ["HOME=/root"] ["FOO_BAR=x"]
    ["DRY_RUN=maybe"] ["--verbose"] "DB_DSN=a" "DB_DSN" "a" "db_dsn=b" "db_dsn" "b"
    (stringFlag "db-dsn" "default")
    (by decide) (by decide) (by decide) (by decide) (by decide) (by decide) (by decide)
    (by decide) (by decide) (by decide) (by decide) (by decide) (by decide)

/-- Counterexample to C16: with the rejected `DRY_RUN=maybe` before
`DB_DSN=a` and `db_dsn=b`, neither entry is applied: the call fails and
`db-dsn` keeps its default, not the value of the later entry. -/
theorem two_entries_not_reached :
    (ParseWithFlagSet exampleLower BuiltinValue.Set ["DRY_RUN=maybe", "DB_DSN=a", "db_dsn=b"]
        (some exampleFlags) []).2 = some (Error.value (SetError.parseBool "maybe")) ∧
    valueOf (ParseWithFlagSet exampleLower BuiltinValue.Set ["DRY_RUN=maybe", "DB_DSN=a", "db_dsn=b"]
        (some exampleFlags) []).1 "db-dsn" = some (BuiltinValue.stringValue "default") ∧
    writesTo exampleLower BuiltinValue.Set exampleFlags ["DRY_RUN=maybe", "DB_DSN=a", "db_dsn=b"] "db-dsn"
      = 0 ∧
    targetName exampleLower exampleFlags "DB_DSN=a" = some "db-dsn" ∧
    targetName exampleLower exampleFlags "db_dsn=b" = some "db-dsn" := by
  decide

theorem parseWithFlagSet_fail_eq (vset : V → String → V × Option E) (fs : FlagSet V)
    (pre post args : List String) (v key val : String) (fn : Flag V) (e : E)
    (hpre : (overlayLoop tbl vset fs pre).2 = none)
    (hsplit : SplitN v '=' = [key, val]) (hkey : Contains key '_' = true)
    (hfn : (overlayLoop tbl vset fs pre).1.Lookup (flagNameOf tbl key) = some fn)
    (hch : fn.Changed = false) (hset : (vset fn.Value val).2 = some e) :
    ParseWithFlagSet tbl vset (pre ++ v :: post) (some fs) args
      = (some ((overlayLoop tbl vset fs pre).1.store (flagNameOf tbl key)
          { fn with Value := (vset fn.Value val).1 }), some (Error.value e)) := by
  have hv := overlayEntry_apply tbl vset (overlayLoop tbl vset fs pre).1 v key val fn hsplit hkey hfn hch
  rw [hset] at hv
  simp only [ParseWithFlagSet, overlayLoop_append tbl vset pre (v :: post) fs hpre, overlayLoop, hv]

/-- C17, as the code has it: when the Set for an environment entry fails,
ParseWithFlagSet returns that error and leaves the collection as the scan
had made it: every flag other than the one the failing entry is applied to
has the record the earlier entries gave it, and the flag the failing entry
is applied to holds the cell that its failed Set left. Nothing is rolled
back. -/
theorem parseWithFlagSet_no_rollback (vset : V → String → V × Option E) (fs : FlagSet V)
    (pre post args : List String) (v key val : String) (fn : Flag V) (e : E)
    (hpre : (overlayLoop tbl vset fs pre).2 = none)
    (hsplit : SplitN v '=' = [key, val]) (hkey : Contains key '_' = true)
    (hfn : (overlayLoop tbl vset fs pre).1.Lookup (flagNameOf tbl key) = some fn)
    (hch : fn.Changed = false) (hset : (vset fn.Value val).2 = some e) :
    (ParseWithFlagSet tbl vset (pre ++ v :: post) (some fs) args).2 = some (Error.value e) ∧
      (∀ n : String, n ≠ flagNameOf tbl key →
        flagOf (ParseWithFlagSet tbl vset (pre ++ v :: post) (some fs) args).1 n
          = (overlayLoop tbl vset fs pre).1.Lookup n) ∧
      flagOf (ParseWithFlagSet tbl vset (pre ++ v :: post) (some fs) args).1 (flagNameOf tbl key)
        = some { fn with Value := (vset fn.Value val).1 } := by
  have hname := lookup_name _ _ fn hfn
  rw [parseWithFlagSet_fail_eq tbl vset fs pre post args v key val fn e hpre hsplit hkey hfn hch hset]
  refine ⟨rfl, ?_, ?_⟩
  · intro n hn
    exact lookup_store_ne _ (flagNameOf tbl key) n { fn with Value := (vset fn.Value val).1 }
      hname hn
  · exact lookup_store_eq _ (flagNameOf tbl key) fn { fn with Value := (vset fn.Value val).1 }
      hname hfn

/-- Witness for C17: `DB_DSN=a` is applied, then `DRY_RUN=maybe` is
rejected: the call returns the error, `db-dsn` still holds `"a"`, and the
collection differs from the one before the call. -/
theorem parseWithFlagSet_no_rollback_witness :
    (ParseWithFlagSet exampleLower BuiltinValue.Set (["DB_DSN=a"] ++ "DRY_RUN=maybe" :: ["FOO_BAR=x"])
        (some exampleFlags) ["--verbose"]).2
      = some (Error.value (SetError.parseBool "maybe")) ∧
    flagOf (ParseWithFlagSet exampleLower BuiltinValue.Set
        (["DB_DSN=a"] ++ "DRY_RUN=maybe" :: ["FOO_BAR=x"])
        (some exampleFlags) ["--verbose"]).1 "db-dsn"
      = some { stringFlag "db-dsn" "default" with Value := BuiltinValue.stringValue "a" } ∧
    (ParseWithFlagSet exampleLower BuiltinValue.Set (["DB_DSN=a"] ++ "DRY_RUN=maybe" :: ["FOO_BAR=x"])
        (some exampleFlags) ["--verbose"]).1 ≠ some exampleFlags :=
  ⟨(parseWithFlagSet_no_rollback exampleLower BuiltinValue.Set exampleFlags ["DB_DSN=a"] ["FOO_BAR=x"]
      ["--verbose"] "DRY_RUN=maybe" "DRY_RUN" "maybe" (boolFlag "dry-run" false)
      (SetError.parseBool "maybe") (by decide) (by decide) (by decide) (by decide) (by decide)
      (by decide)).1,
    ((parseWithFlagSet_no_rollback exampleLower BuiltinValue.Set exampleFlags ["DB_DSN=a"] ["FOO_BAR=x"]
      ["--verbose"] "DRY_RUN=maybe" "DRY_RUN" "maybe" (boolFlag "dry-run" false)
      (SetError.parseBool "maybe") (by decide) (by decide) (by decide) (by decide) (by decide)
      (by decide)).2.1 "db-dsn" (by decide)).trans (by decide),
    by decide⟩

/-- Counterexample to C17: the integer flag `max-count` has the default
`7`; `MAX_COUNT=5` sets it to `5`; the Set for the next entry `max_count=x`
fails, and when the call returns that error the flag holds `0`, what the
failed Set left, not the value it was set to from the earlier entry. -/
theorem failed_set_overwrites_earlier_value :
    valueOf (some (overlayLoop exampleLower BuiltinValue.Set
        { formal := [intFlag "max-count" 7], args := [] } ["MAX_COUNT=5"]).1) "max-count"
      = some (BuiltinValue.intValue 5) ∧
    (overlayLoop exampleLower BuiltinValue.Set
        { formal := [intFlag "max-count" 7], args := [] } ["MAX_COUNT=5"]).2 = none ∧
    (ParseWithFlagSet exampleLower BuiltinValue.Set ["MAX_COUNT=5", "max_count=x"]
        (some { formal := [intFlag "max-count" 7], args := [] }) []).2
      = some (Error.value (SetError.parseInt "x")) ∧
    valueOf (ParseWithFlagSet exampleLower BuiltinValue.Set ["MAX_COUNT=5", "max_count=x"]
        (some { formal := [intFlag "max-count" 7], args := [] }) []).1 "max-count"
      = some (BuiltinValue.intValue 0) := by
  decide

/-- The key `\u212A_X` (Kelvin sign, lowered to `k` by the case tables)
names the flag `k-x`, and the loop sets that flag from the entry. -/
theorem unicode_key_reaches_flag :
    flagNameOf exampleLower "\u212A_X" = "k-x" ∧
    valueOf (ParseWithFlagSet exampleLower BuiltinValue.Set ["K_X=a", "\u212A_X=b"]
        (some { formal := [stringFlag "k-x" "default"], args := [] }) []).1 "k-x"
      = some (BuiltinValue.stringValue "b") ∧
    envAvoids exampleLower ["\u212A_X=1"] "k-x" = false := by
  decide

end Theorems

end Cli
